import Mathlib

/-!
Mini word processor: document, bounded undo log, redo log

Shallow embedding of `src/miniproject.c`.

* The linked list `textHead` of `WordNode`s is a `List Word` (head first).
* The linked stacks `undoStack` / `redoStack` are `List Action` (top first).
* C `int` values (`pos`, `undoCount`, `type`) are mathematical integers. The only
  arithmetic on them is `pos - 1`, `i++`, `count++`, `count--`. In `insertWordAt` the
  difference `pos - 1` is computed only for `pos > 1`; in `deleteWordAt` it is computed
  for every `pos` other than 1 and leaves the `int` range only at `INT_MIN`, where C gives
  no meaning to it. The loop counters are bounded by the list lengths and `undoCount`
  by `MAX_UNDO`, so on every other `int` input the model computes what the C code does.
* A word is a `String`. The document operations (`insertWordAt`, `deleteWordAt`) and the
  history operations are modelled on words that fit the 50-byte buffers (at most 49
  bytes), where `strcpy` is a plain copy. The two readers of raw text, the seeding loop of
  `main` and `loadFromFile`, copy a token of any length with no check: a token of 50
  bytes or more overruns a buffer, which is undefined behaviour, the value `none`.
* Functions that write through pointers return the new values instead.
* `push` can run into undefined behaviour (see there); this is the value `none`.
-/

namespace MiniProject

/-- A word of the document (`char word[WORD_LEN]`). -/
abbrev Word := String

/-- The constant `#define INSERT 1`. -/
def INSERT : Int := 1

/-- The constant `#define DELETE 2`. -/
def DELETE : Int := 2

/-- The constant `#define MAX_UNDO 5`. -/
def MAX_UNDO : Int := 5

/-- The constant `#define WORD_LEN 50`: the size in bytes of every word buffer. -/
def WORD_LEN : Nat := 50

/-- The word with its terminating NUL fits a buffer of `WORD_LEN` bytes. -/
def fits (w : Word) : Bool :=
  decide (w.utf8ByteSize < WORD_LEN)

/-- The record `struct Action`: kind of edit, affected word, position of the edit. -/
structure Action where
  type : Int
  word : Word
  position : Int
deriving DecidableEq, Repr

/-- The global state: `textHead`, `undoStack`, `redoStack`, `undoCount`. -/
structure State where
  textHead : List Word
  undoStack : List Action
  redoStack : List Action
  undoCount : Int
deriving DecidableEq, Repr

/-- The loop of `wordCount` (lines 41-44): `count` so far, `t` the rest of the list. -/
def wordCountLoop : Int → List Word → Int
  | count, [] => count
  | count, _ :: t => wordCountLoop (count + 1) t

/-- The function `wordCount` (lines 38-46). -/
def wordCount (textHead : List Word) : Int :=
  wordCountLoop 0 textHead

/-- The function `clearStack` (lines 48-54): unlink and free the top node until none is left. -/
def clearStack : List Action → List Action
  | [] => []
  | _ :: next => clearStack next

/-- The function `clearText` (lines 56-62). -/
def clearText : List Word → List Word
  | [] => []
  | _ :: next => clearText next

/-- The walk of `push` to the last node (lines 70-76), entered at a node `cur` that has a
predecessor (`prev` is not NULL): the list from `cur` on without its last node. -/
def evictWalk : Action → List Action → List Action
  | _, [] => []
  | cur, n :: rest => cur :: evictWalk n rest

/-- The function `push` (lines 66-85), returning the new stack and the new `*count`.
In the eviction branch the walk starts with `cur = *top`: on an empty stack `cur->next`
reads through NULL, and on a one-node stack `prev` stays NULL, the node is freed and `*top`
is left dangling. Both are undefined behaviour: `none`. -/
def push (top : List Action) (a : Action) (count : Int) : Option (List Action × Int) :=
  if count = MAX_UNDO then
    match top with
    | [] => none
    | [_] => none
    | cur :: n :: rest => some (a :: cur :: evictWalk n rest, count - 1 + 1)
  else
    some (a :: top, count + 1)

/-- The function `pop` (lines 87-97): `none` in the first component is `return 0` (nothing
is written), `some a` is `return 1` with `*a` set. -/
def pop (top : List Action) (count : Int) : Option Action × List Action × Int :=
  match top with
  | [] => (none, top, count)
  | temp :: next => (some temp, next, count - 1)

/-- The loop and the splice of `insertWordAt` (lines 113-117) at node `t` with successors
`rest` and loop counter `i`; the result is the list from `t` on. -/
def insertWalk (word : Word) (pos : Int) : Int → Word → List Word → List Word
  | _, t, [] => [t, word]
  | i, t, n :: rest =>
    if i < pos - 1 then t :: insertWalk word pos (i + 1) n rest
    else t :: word :: n :: rest

/-- The function `insertWordAt` (lines 101-118), for a `word` that fits the node's buffer
(`strcpy` at line 103 does not check; the readers of raw text check `fits` before they
call it, see `seedToken` and `loadLoop`). -/
def insertWordAt (word : Word) (pos : Int) (textHead : List Word) : List Word :=
  match textHead with
  | [] => [word]
  | t :: rest =>
    if pos ≤ 1 then word :: t :: rest
    else insertWalk word pos 1 t rest

/-- The loop and the unlink of `deleteWordAt` (lines 133-143) at node `t` with successors
`rest` and loop counter `i`: `none` is `return 0`, otherwise the deleted word and the
list from `t` on. -/
def deleteWalk (pos : Int) : Int → Word → List Word → Option (Word × List Word)
  | _, _, [] => none
  | i, t, n :: rest =>
    if i < pos - 1 then
      match deleteWalk pos (i + 1) n rest with
      | some (d, l) => some (d, t :: l)
      | none => none
    else some (n, t :: rest)

/-- The function `deleteWordAt` (lines 120-144): the first component is `none` for
`return 0` (the list is not written) and `some deleted` for `return 1`; the second is the
list afterwards. -/
def deleteWordAt (pos : Int) (textHead : List Word) : Option Word × List Word :=
  match textHead with
  | [] => (none, [])
  | t :: rest =>
    if pos = 1 then (some t, rest)
    else
      match deleteWalk pos 1 t rest with
      | some (d, l) => (some d, l)
      | none => (none, t :: rest)

/-- The branch of `undo` on the popped action (lines 170-175), on the document. -/
def undoApply (a : Action) (textHead : List Word) : List Word :=
  if a.type = INSERT then (deleteWordAt a.position textHead).2
  else insertWordAt a.word a.position textHead

/-- The branch of `redo` on the popped action (lines 187-192), on the document. -/
def redoApply (a : Action) (textHead : List Word) : List Word :=
  if a.type = INSERT then insertWordAt a.word a.position textHead
  else (deleteWordAt a.position textHead).2

/-- The function `undo` (lines 163-178). The flag is `false` on the early return
("Nothing to undo."), `true` otherwise. The redo stack is pushed with a fresh counter 0. -/
def undo (s : State) : Option (Bool × State) :=
  match pop s.undoStack s.undoCount with
  | (none, _, _) => some (false, s)
  | (some a, u, c) =>
    match push s.redoStack a 0 with
    | none => none
    | some (r, _) =>
      some (true, { textHead := undoApply a s.textHead, undoStack := u,
                    redoStack := r, undoCount := c })

/-- The function `redo` (lines 180-195). The flag is `false` on the early return
("Nothing to redo."), `true` otherwise. The redo stack is popped with a fresh counter 0. -/
def redo (s : State) : Option (Bool × State) :=
  match pop s.redoStack 0 with
  | (none, _, _) => some (false, s)
  | (some a, r, _) =>
    match push s.undoStack a s.undoCount with
    | none => none
    | some (u, c) =>
      some (true, { textHead := redoApply a s.textHead, undoStack := u,
                    redoStack := r, undoCount := c })

/-- The record step of `main` (lines 266-268) for an action `a`: bounded push on the undo
stack, then `clearStack(&redoStack)`. -/
def record (a : Action) (s : State) : Option State :=
  match push s.undoStack a s.undoCount with
  | none => none
  | some (u, c) =>
    some { textHead := s.textHead, undoStack := u,
           redoStack := clearStack s.redoStack, undoCount := c }

/-- The body of the seeding loop of `main` (lines 260-268) for one token. The token comes
from `strtok` on a 400-byte line and is copied unchecked by `strcpy` into `n->word`
(line 103) and into `a.word` (line 264), both of `WORD_LEN` bytes: a token that does not
fit overruns them, `none`. -/
def seedToken (token : Word) (s : State) : Option State :=
  if fits token then
    let text := insertWordAt token (wordCount s.textHead + 1) s.textHead
    record { type := INSERT, word := token, position := wordCount text }
      { s with textHead := text }
  else none

/-- An edit request: insert a word at a position, or delete at a position. -/
inductive Edit where
  | ins (w : Word) (p : Int)
  | del (p : Int)
deriving DecidableEq, Repr

/-- Modelled from the spec: `recordInsert` of section 4.2 for an arbitrary position (the
source records inserts only in the seeding loop of `main`, which is the instance
`p = wordCount() + 1`, see `seedToken`). `insertWordAt(w, p)` followed by the record step
of `main` for `Insert{w, p}`. -/
def editInsert (w : Word) (p : Int) (s : State) : Option State :=
  record { type := INSERT, word := w, position := p }
    { s with textHead := insertWordAt w p s.textHead }

/-- Modelled from the spec: `recordDelete` of section 4.2 (the source has no delete
command). `deleteWordAt(p)`; when it returns 1 the record step of `main` is run for
`Delete{removed, p}`; when it returns 0 nothing is recorded and the state is unchanged. -/
def editDelete (p : Int) (s : State) : Option State :=
  match deleteWordAt p s.textHead with
  | (some removed, text) =>
    record { type := DELETE, word := removed, position := p } { s with textHead := text }
  | (none, _) => some s

/-- One edit request applied to the session. -/
def applyEdit (e : Edit) (s : State) : Option State :=
  match e with
  | .ins w p => editInsert w p s
  | .del p => editDelete p s

/-- A sequence of edit requests, in order, with no undo or redo in between. -/
def runEdits : List Edit → State → Option State
  | [], s => some s
  | e :: es, s =>
    match applyEdit e s with
    | some s1 => runEdits es s1
    | none => none

/-- The call `undo()` made `n` times in a row (the Ctrl+Z branch of the loop of `main`),
with the flags of the calls in order. -/
def undoTimes : Nat → State → Option (List Bool × State)
  | 0, s => some ([], s)
  | n + 1, s =>
    match undo s with
    | none => none
    | some (ok, s1) =>
      match undoTimes n s1 with
      | none => none
      | some (oks, s2) => some (ok :: oks, s2)

/-- The call `redo()` made `n` times in a row (the Ctrl+Y branch of the loop of `main`),
with the flags of the calls in order. -/
def redoTimes : Nat → State → Option (List Bool × State)
  | 0, s => some ([], s)
  | n + 1, s =>
    match redo s with
    | none => none
    | some (ok, s1) =>
      match redoTimes n s1 with
      | none => none
      | some (oks, s2) => some (ok :: oks, s2)

/-- The action that the record step stores for an edit request on document `t`: an insert
is always recorded, a delete only when `deleteWordAt` returned 1. -/
def actionOf (e : Edit) (t : List Word) : Option Action :=
  match e with
  | .ins w p => some { type := INSERT, word := w, position := p }
  | .del p =>
    match deleteWordAt p t with
    | (some removed, _) => some { type := DELETE, word := removed, position := p }
    | (none, _) => none

/-- The document after one edit request. -/
def docStep (e : Edit) (t : List Word) : List Word :=
  match e with
  | .ins w p => insertWordAt w p t
  | .del p => (deleteWordAt p t).2

/-- The document after a sequence of edit requests. -/
def docAfter : List Edit → List Word → List Word
  | [], t => t
  | e :: es, t => docAfter es (docStep e t)

/-- The actions recorded by a sequence of edit requests, oldest first. -/
def actionsOf : List Edit → List Word → List Action
  | [], _ => []
  | e :: es, t => (actionOf e t).toList ++ actionsOf es (docStep e t)

/-- An edit request is position-valid on document `t`: an insert at `1 ≤ p ≤ length + 1`,
a delete at `1 ≤ p ≤ length`. -/
def editValid (e : Edit) (t : List Word) : Bool :=
  match e with
  | .ins _ p => decide (1 ≤ p) && decide (p ≤ wordCount t + 1)
  | .del p => decide (1 ≤ p) && decide (p ≤ wordCount t)

/-- Every edit request of the sequence is position-valid on the document it meets. -/
def validEdits : List Edit → List Word → Bool
  | [], _ => true
  | e :: es, t => editValid e t && validEdits es (docStep e t)

/-- Every edit request of the sequence is recorded: each delete in it returns 1. -/
def allRecorded : List Edit → List Word → Bool
  | [], _ => true
  | e :: es, t => (actionOf e t).isSome && allRecorded es (docStep e t)

/-- The counter `undoCount` is the number of nodes of the undo stack, at most `MAX_UNDO`. -/
def Consistent (s : State) : Prop :=
  s.undoCount = s.undoStack.length ∧ (s.undoStack.length : Int) ≤ MAX_UNDO

instance (s : State) : Decidable (Consistent s) :=
  inferInstanceAs (Decidable (_ ∧ _))

/-- The globals at program start (lines 31-34): no words, both stacks empty, count 0. -/
def initState : State :=
  { textHead := [], undoStack := [], redoStack := [], undoCount := 0 }

/-- The read loop of `loadFromFile` (lines 236-237) over the whitespace-separated words
of the file. `fscanf(fp, "%s", w)` stores a word of any length in `w[WORD_LEN]`: a word
that does not fit overruns it, `none`. -/
def loadLoop : List Word → List Word → Option (List Word)
  | [], text => some text
  | w :: ws, text =>
    if fits w then loadLoop ws (insertWordAt w (wordCount text + 1) text)
    else none

/-- The function `loadFromFile` (lines 220-241). The file is a parameter: `none` when
`fopen` fails (early return, nothing is written), `some ws` with the whitespace-separated
words of the file otherwise. The result is `none` when the read loop overruns `w`. -/
def loadFromFile (file : Option (List Word)) (s : State) : Option State :=
  match file with
  | none => some s
  | some ws =>
    match loadLoop ws (clearText s.textHead) with
    | none => none
    | some text =>
      some { textHead := text,
             undoStack := clearStack s.undoStack,
             redoStack := clearStack s.redoStack,
             undoCount := 0 }

/-- The seeding loop of `main` (lines 258-270) over the tokens of the input line. -/
def seedLoop : List Word → State → Option State
  | [], s => some s
  | token :: tokens, s =>
    match seedToken token s with
    | some s1 => seedLoop tokens s1
    | none => none

/-- The edit requests that the seeding loop amounts to on a document of `base` words:
each token is inserted at the position after the current last word. -/
def seedEdits : Nat → List Word → List Edit
  | _, [] => []
  | base, w :: ws => Edit.ins w ((base : Int) + 1) :: seedEdits (base + 1) ws

/-- A history key of the command loop of `main`: Ctrl+Z (26) or Ctrl+Y (25). -/
inductive Cmd where
  | undo
  | redo
deriving DecidableEq, Repr

/-- One history key handled by the command loop of `main` (lines 277-284). -/
def runCmd (c : Cmd) (s : State) : Option State :=
  match c with
  | .undo => (undo s).map Prod.snd
  | .redo => (redo s).map Prod.snd

/-- A sequence of history keys with no edit in between. -/
def runCmds : List Cmd → State → Option State
  | [], s => some s
  | c :: cs, s =>
    match runCmd c s with
    | some s1 => runCmds cs s1
    | none => none

/-- The call `redo()` in state `s` gets past its `pop` and its `push` finds
`*count == MAX_UNDO` (line 68): it takes the branch that discards the oldest undo entry. -/
def redoEvicts (s : State) : Bool :=
  match pop s.redoStack 0 with
  | (none, _, _) => false
  | (some _, _, _) => decide (s.undoCount = MAX_UNDO)

/-- What the `deleteWordAt` call of `undo()` (line 172) returns in state `s`: `none` when
`undo` makes no such call (empty undo stack, or a Delete action on top), otherwise
`some r` with `r` the outcome of the call (`some word` for 1, `none` for 0). -/
def undoDeleteResult (s : State) : Option (Option Word) :=
  match pop s.undoStack s.undoCount with
  | (none, _, _) => none
  | (some a, _, _) =>
    if a.type = INSERT then some (deleteWordAt a.position s.textHead).1 else none

/-- The session states that the program can be in: the start state, and every state
obtained from one by a seeded token, an edit request, `undo()`, `redo()` or a load. -/
inductive Reachable : State → Prop where
  | start : Reachable initState
  | seed (w : Word) (s s1 : State) : Reachable s → seedToken w s = some s1 → Reachable s1
  | edit (e : Edit) (s s1 : State) : Reachable s → applyEdit e s = some s1 → Reachable s1
  | undo (s s1 : State) (ok : Bool) : Reachable s → undo s = some (ok, s1) → Reachable s1
  | redo (s s1 : State) (ok : Bool) : Reachable s → redo s = some (ok, s1) → Reachable s1
  | load (ws : List Word) (s s1 : State) :
      Reachable s → loadFromFile (some ws) s = some s1 → Reachable s1

/-- The history invariant: `undoCount` is the size of the undo stack, and the two stacks
together hold at most five actions. -/
def HistoryInv (s : State) : Prop :=
  s.undoCount = s.undoStack.length ∧ s.undoStack.length + s.redoStack.length ≤ 5

/-! ## The document operations as list operations -/

theorem wordCountLoop_eq (t : List Word) :
    ∀ count : Int, wordCountLoop count t = count + t.length := by
  induction t with
  | nil => intro count; simp [wordCountLoop]
  | cons _ t ih =>
    intro count
    simp only [wordCountLoop, ih, List.length_cons]
    push_cast
    ring

theorem wordCount_eq (t : List Word) : wordCount t = t.length := by
  simp [wordCount, wordCountLoop_eq]

theorem clearStack_eq (st : List Action) : clearStack st = [] := by
  induction st with
  | nil => rfl
  | cons _ _ ih => simpa [clearStack] using ih

theorem insertWalk_eq (word : Word) (pos : Int) (rest : List Word) :
    ∀ (i : Int) (t : Word), insertWalk word pos i t rest =
      t :: (rest.take (pos - 1 - i).toNat ++ word :: rest.drop (pos - 1 - i).toNat) := by
  induction rest with
  | nil => intro i t; simp [insertWalk]
  | cons n rest ih =>
    intro i t
    by_cases h : i < pos - 1
    · have hm : (pos - 1 - i).toNat = (pos - 1 - (i + 1)).toNat + 1 := by omega
      simp only [insertWalk, if_pos h, ih, hm, List.take_succ_cons, List.drop_succ_cons,
        List.cons_append]
    · have hm : (pos - 1 - i).toNat = 0 := by omega
      simp [insertWalk, h, hm]

theorem insertWordAt_eq (word : Word) (pos : Int) (text : List Word) :
    insertWordAt word pos text =
      text.take (pos - 1).toNat ++ word :: text.drop (pos - 1).toNat := by
  cases text with
  | nil => simp [insertWordAt]
  | cons t rest =>
    by_cases h : pos ≤ 1
    · have hm : (pos - 1).toNat = 0 := by omega
      simp [insertWordAt, h, hm]
    · have hm : (pos - 1).toNat = (pos - 1 - 1).toNat + 1 := by omega
      simp only [insertWordAt, if_neg h, insertWalk_eq, hm, List.take_succ_cons,
        List.drop_succ_cons, List.cons_append]

theorem deleteWalk_eq (pos : Int) (rest : List Word) :
    ∀ (i : Int) (t : Word), deleteWalk pos i t rest =
      (rest[(pos - 1 - i).toNat]?).map
        (fun d => (d, t :: rest.eraseIdx (pos - 1 - i).toNat)) := by
  induction rest with
  | nil => intro i t; simp [deleteWalk]
  | cons n rest ih =>
    intro i t
    by_cases h : i < pos - 1
    · have hm : (pos - 1 - i).toNat = (pos - 1 - (i + 1)).toNat + 1 := by omega
      simp only [deleteWalk, if_pos h, ih, hm, List.getElem?_cons_succ,
        List.eraseIdx_cons_succ]
      cases rest[(pos - 1 - (i + 1)).toNat]? <;> rfl
    · have hm : (pos - 1 - i).toNat = 0 := by omega
      simp [deleteWalk, h, hm]

/-- Deleting at an existing position `1 ≤ pos ≤ length`. -/
theorem deleteWordAt_valid (pos : Int) (text : List Word) (h1 : 1 ≤ pos)
    (h2 : pos ≤ text.length) :
    ∃ w, text[(pos - 1).toNat]? = some w ∧
      deleteWordAt pos text = (some w, text.eraseIdx (pos - 1).toNat) := by
  cases text with
  | nil => simp at h2; omega
  | cons t rest =>
    by_cases h : pos = 1
    · subst h
      exact ⟨t, by simp, by simp [deleteWordAt]⟩
    · have hm : (pos - 1).toNat = (pos - 1 - 1).toNat + 1 := by omega
      have hlt : (pos - 1 - 1).toNat < rest.length := by
        simp only [List.length_cons] at h2
        push_cast at h2
        omega
      refine ⟨rest[(pos - 1 - 1).toNat], ?_, ?_⟩
      · rw [hm, List.getElem?_cons_succ, List.getElem?_eq_getElem hlt]
      · simp only [deleteWordAt, if_neg h, deleteWalk_eq, hm, List.eraseIdx_cons_succ,
          List.getElem?_eq_getElem hlt, Option.map_some']

/-- Deleting beyond the end. -/
theorem deleteWordAt_beyond (pos : Int) (text : List Word) (h : (text.length : Int) < pos) :
    deleteWordAt pos text = (none, text) := by
  cases text with
  | nil => rfl
  | cons t rest =>
    simp only [List.length_cons] at h
    push_cast at h
    have h1 : pos ≠ 1 := by omega
    have hge : rest.length ≤ (pos - 1 - 1).toNat := by omega
    simp only [deleteWordAt, if_neg h1, deleteWalk_eq, List.getElem?_eq_none hge,
      Option.map_none']

theorem eraseIdx_take_append_cons (text : List Word) (w : Word) (k : Nat)
    (hk : k ≤ text.length) :
    (text.take k ++ w :: text.drop k).eraseIdx k = text := by
  induction text generalizing k with
  | nil =>
    have : k = 0 := by simpa using hk
    subst this; rfl
  | cons t rest ih =>
    cases k with
    | zero => rfl
    | succ k =>
      simp only [List.length_cons, Nat.succ_le_succ_iff] at hk
      simp only [List.take_succ_cons, List.drop_succ_cons, List.cons_append,
        List.eraseIdx_cons_succ, ih k hk]

theorem getElem?_take_append_cons (text : List Word) (w : Word) (k : Nat)
    (hk : k ≤ text.length) :
    (text.take k ++ w :: text.drop k)[k]? = some w := by
  induction text generalizing k with
  | nil =>
    have : k = 0 := by simpa using hk
    subst this; rfl
  | cons t rest ih =>
    cases k with
    | zero => rfl
    | succ k =>
      simp only [List.length_cons, Nat.succ_le_succ_iff] at hk
      simp only [List.take_succ_cons, List.drop_succ_cons, List.cons_append,
        List.getElem?_cons_succ, ih k hk]

/-- Deleting at the position of a preceding in-range insert gives back the word and the
document. -/
theorem deleteWordAt_insertWordAt (w : Word) (pos : Int) (text : List Word) (h1 : 1 ≤ pos)
    (h2 : pos ≤ text.length + 1) :
    deleteWordAt pos (insertWordAt w pos text) = (some w, text) := by
  have hk : (pos - 1).toNat ≤ text.length := by omega
  have hlen : (insertWordAt w pos text).length = text.length + 1 := by
    rw [insertWordAt_eq]
    simp only [List.length_append, List.length_take, List.length_cons, List.length_drop]
    omega
  obtain ⟨d, hd, hdel⟩ := deleteWordAt_valid pos (insertWordAt w pos text) h1
    (by rw [hlen]; push_cast; omega)
  rw [insertWordAt_eq] at hd hdel
  rw [getElem?_take_append_cons text w _ hk] at hd
  rw [eraseIdx_take_append_cons text w _ hk] at hdel
  rw [insertWordAt_eq, hdel, ← hd]

/-! ## The stacks as lists -/

theorem evictWalk_eq (rest : List Action) :
    ∀ cur : Action, evictWalk cur rest = (cur :: rest).dropLast := by
  induction rest with
  | nil => intro cur; rfl
  | cons n rest ih => intro cur; simp [evictWalk, ih]

/-- On a consistent undo stack `push` keeps the five newest entries. -/
theorem push_consistent (u : List Action) (a : Action) (c : Int) (hc : c = u.length)
    (hu : u.length ≤ 5) :
    push u a c = some ((a :: u).take 5, (((a :: u).take 5).length : Int)) := by
  subst hc
  by_cases h5 : u.length = 5
  · match u, h5 with
    | [x1, x2, x3, x4, x5], _ => simp [push, MAX_UNDO, evictWalk]
  · have hlt : u.length < 5 := by omega
    have hne : ¬ ((u.length : Int) = MAX_UNDO) := by unfold MAX_UNDO; omega
    have ht : (a :: u).take 5 = a :: u := List.take_of_length_le (by simp; omega)
    simp only [push, if_neg hne, ht, List.length_cons]
    push_cast
    rfl

theorem undo_cons (text : List Word) (a : Action) (u r : List Action) (c : Int) :
    undo { textHead := text, undoStack := a :: u, redoStack := r, undoCount := c } =
      some (true, { textHead := undoApply a text, undoStack := u, redoStack := a :: r,
                    undoCount := c - 1 }) := by
  simp [undo, pop, push, MAX_UNDO]

theorem redo_cons (text : List Word) (a : Action) (u r : List Action) (c : Int)
    (hc : c = u.length) (hu : u.length ≤ 5) :
    redo { textHead := text, undoStack := u, redoStack := a :: r, undoCount := c } =
      some (true, { textHead := redoApply a text, undoStack := (a :: u).take 5,
                    redoStack := r, undoCount := (((a :: u).take 5).length : Int) }) := by
  simp only [redo, pop, push_consistent u a c hc hu]

theorem undoTimes_append (as : List Action) :
    ∀ (text : List Word) (u r : List Action) (c : Int),
      undoTimes as.length
          { textHead := text, undoStack := as ++ u, redoStack := r, undoCount := c } =
        some (List.replicate as.length true,
          { textHead := as.foldl (fun t a => undoApply a t) text, undoStack := u,
            redoStack := as.reverse ++ r, undoCount := c - as.length }) := by
  induction as with
  | nil => intro text u r c; simp [undoTimes]
  | cons a as ih =>
    intro text u r c
    simp only [List.length_cons, undoTimes, List.cons_append, undo_cons, ih,
      List.replicate_succ, List.foldl_cons, List.reverse_cons, List.append_assoc,
      List.singleton_append]
    congr 3
    push_cast
    ring

theorem redoTimes_append (bs : List Action) :
    ∀ (text : List Word) (u r : List Action), u.length + bs.length ≤ 5 →
      redoTimes bs.length
          { textHead := text, undoStack := u, redoStack := bs ++ r,
            undoCount := (u.length : Int) } =
        some (List.replicate bs.length true,
          { textHead := bs.foldl (fun t a => redoApply a t) text,
            undoStack := bs.reverse ++ u, redoStack := r,
            undoCount := ((bs.reverse ++ u).length : Int) }) := by
  induction bs with
  | nil => intro text u r _; simp [redoTimes]
  | cons b bs ih =>
    intro text u r h
    simp only [List.length_cons] at h
    have ht : (b :: u).take 5 = b :: u := List.take_of_length_le (by simp; omega)
    have h2 : (b :: u).length + bs.length ≤ 5 := by simp; omega
    have hih := ih (redoApply b text) (b :: u) r h2
    simp only [redoTimes, List.cons_append,
      redo_cons text b u (bs ++ r) u.length rfl (by omega), ht, hih]
    simp [List.replicate_succ]

/-! ## Edits, their recorded actions, and replay -/

theorem take_eraseIdx_append_cons (text : List Word) (w : Word) (k : Nat)
    (hw : text[k]? = some w) :
    (text.eraseIdx k).take k ++ w :: (text.eraseIdx k).drop k = text := by
  induction text generalizing k with
  | nil => simp at hw
  | cons t rest ih =>
    cases k with
    | zero =>
      simp only [List.getElem?_cons_zero, Option.some.injEq] at hw
      simp [hw]
    | succ k =>
      simp only [List.getElem?_cons_succ] at hw
      simp only [List.eraseIdx_cons_succ, List.take_succ_cons, List.drop_succ_cons,
        List.cons_append, ih k hw]

theorem editValid_isSome (e : Edit) (t : List Word) (h : editValid e t = true) :
    (actionOf e t).isSome = true := by
  cases e with
  | ins w p => rfl
  | del p =>
    simp only [editValid, Bool.and_eq_true, decide_eq_true_eq, wordCount_eq] at h
    obtain ⟨w, _, hdel⟩ := deleteWordAt_valid p t h.1 h.2
    simp [actionOf, hdel]

theorem validEdits_allRecorded (es : List Edit) :
    ∀ t : List Word, validEdits es t = true → allRecorded es t = true := by
  induction es with
  | nil => intro t _; rfl
  | cons e es ih =>
    intro t h
    simp only [validEdits, Bool.and_eq_true] at h
    simp only [allRecorded, Bool.and_eq_true]
    exact ⟨editValid_isSome e t h.1, ih _ h.2⟩

theorem redoApply_actionOf (e : Edit) (t : List Word) (a : Action)
    (h : actionOf e t = some a) : redoApply a t = docStep e t := by
  cases e with
  | ins w p =>
    simp only [actionOf, Option.some.injEq] at h
    subst h
    simp [redoApply, docStep]
  | del p =>
    simp only [actionOf] at h
    split at h
    · simp only [Option.some.injEq] at h
      subst h
      simp [redoApply, docStep, INSERT, DELETE]
    · simp at h

theorem undoApply_actionOf (e : Edit) (t : List Word) (a : Action)
    (hv : editValid e t = true) (h : actionOf e t = some a) :
    undoApply a (docStep e t) = t := by
  cases e with
  | ins w p =>
    simp only [actionOf, Option.some.injEq] at h
    subst h
    simp only [editValid, Bool.and_eq_true, decide_eq_true_eq, wordCount_eq] at hv
    simp [undoApply, docStep, deleteWordAt_insertWordAt w p t hv.1 hv.2]
  | del p =>
    simp only [editValid, Bool.and_eq_true, decide_eq_true_eq, wordCount_eq] at hv
    obtain ⟨w, hw, hdel⟩ := deleteWordAt_valid p t hv.1 hv.2
    simp only [actionOf, hdel, Option.some.injEq] at h
    subst h
    simp only [undoApply, docStep, hdel, INSERT, DELETE, insertWordAt_eq]
    simpa using take_eraseIdx_append_cons t w _ hw

theorem actionsOf_length (es : List Edit) :
    ∀ t : List Word, allRecorded es t = true → (actionsOf es t).length = es.length := by
  induction es with
  | nil => intro t _; rfl
  | cons e es ih =>
    intro t h
    simp only [allRecorded, Bool.and_eq_true] at h
    obtain ⟨a, ha⟩ := Option.isSome_iff_exists.mp h.1
    simp [actionsOf, ha, ih _ h.2]

theorem foldl_redoApply_actionsOf (es : List Edit) :
    ∀ t : List Word, allRecorded es t = true →
      (actionsOf es t).foldl (fun t a => redoApply a t) t = docAfter es t := by
  induction es with
  | nil => intro t _; rfl
  | cons e es ih =>
    intro t h
    simp only [allRecorded, Bool.and_eq_true] at h
    obtain ⟨a, ha⟩ := Option.isSome_iff_exists.mp h.1
    simp [actionsOf, ha, docAfter, redoApply_actionOf e t a ha, ih _ h.2]

theorem foldl_undoApply_actionsOf (es : List Edit) :
    ∀ t : List Word, validEdits es t = true →
      (actionsOf es t).reverse.foldl (fun t a => undoApply a t) (docAfter es t) = t := by
  induction es with
  | nil => intro t _; rfl
  | cons e es ih =>
    intro t h
    simp only [validEdits, Bool.and_eq_true] at h
    obtain ⟨a, ha⟩ := Option.isSome_iff_exists.mp (editValid_isSome e t h.1)
    simp [actionsOf, ha, docAfter, ih _ h.2, undoApply_actionOf e t a h.1 ha]

theorem take_append_take (n : Nat) (xs ys : List Action) :
    (xs ++ ys.take n).take n = (xs ++ ys).take n := by
  rw [List.take_append_eq_append_take, List.take_append_eq_append_take, List.take_take]
  congr 2
  omega

theorem record_consistent (a : Action) (s : State) (hs : Consistent s) :
    record a s = some { textHead := s.textHead, undoStack := (a :: s.undoStack).take 5,
                        redoStack := [],
                        undoCount := (((a :: s.undoStack).take 5).length : Int) } := by
  have hu : s.undoStack.length ≤ 5 := by
    have := hs.2; unfold MAX_UNDO at this; omega
  simp only [record, push_consistent s.undoStack a s.undoCount hs.1 hu, clearStack_eq]

theorem applyEdit_recorded (e : Edit) (s : State) (a : Action) (hs : Consistent s)
    (ha : actionOf e s.textHead = some a) :
    applyEdit e s = some { textHead := docStep e s.textHead,
                           undoStack := (a :: s.undoStack).take 5, redoStack := [],
                           undoCount := (((a :: s.undoStack).take 5).length : Int) } := by
  cases e with
  | ins w p =>
    simp only [actionOf, Option.some.injEq] at ha
    subst ha
    have hc : Consistent { s with textHead := insertWordAt w p s.textHead } := hs
    simp only [applyEdit, editInsert, record_consistent _ _ hc, docStep]
  | del p =>
    simp only [actionOf] at ha
    split at ha
    · rename_i removed text hdel
      simp only [Option.some.injEq] at ha
      subst ha
      have hc : Consistent { s with textHead := text } := hs
      simp only [applyEdit, editDelete, hdel, record_consistent _ _ hc, docStep]
    · simp at ha

/-- The state after a run of recorded edits from a consistent state. -/
theorem runEdits_recorded (es : List Edit) :
    ∀ s : State, Consistent s → allRecorded es s.textHead = true →
      runEdits es s = some
        { textHead := docAfter es s.textHead,
          undoStack := ((actionsOf es s.textHead).reverse ++ s.undoStack).take 5,
          redoStack := if es.isEmpty then s.redoStack else [],
          undoCount :=
            ((((actionsOf es s.textHead).reverse ++ s.undoStack).take 5).length : Int) } := by
  induction es with
  | nil =>
    intro s hs _
    have hu : s.undoStack.length ≤ 5 := by
      have := hs.2; unfold MAX_UNDO at this; omega
    have ht : s.undoStack.take 5 = s.undoStack := List.take_of_length_le hu
    simp only [runEdits, docAfter, actionsOf, List.reverse_nil, List.nil_append, ht,
      List.isEmpty_nil, if_true, ← hs.1]
  | cons e es ih =>
    intro s hs h
    simp only [allRecorded, Bool.and_eq_true] at h
    obtain ⟨a, ha⟩ := Option.isSome_iff_exists.mp h.1
    have hc : Consistent
        { textHead := docStep e s.textHead,
          undoStack := (a :: s.undoStack).take 5, redoStack := [],
          undoCount := (((a :: s.undoStack).take 5).length : Int) } := by
      refine ⟨rfl, ?_⟩
      simp only [MAX_UNDO, List.length_take]
      omega
    simp only [runEdits, applyEdit_recorded e s a hs ha, ih _ hc h.2, actionsOf, ha,
      Option.toList_some, List.singleton_append, List.reverse_cons, List.append_assoc,
      docAfter, take_append_take, List.isEmpty_cons, Bool.false_eq_true, if_false, ite_self]

theorem runEdits_append (es1 es2 : List Edit) :
    ∀ s : State, runEdits (es1 ++ es2) s = (runEdits es1 s).bind (runEdits es2) := by
  induction es1 with
  | nil => intro s; rfl
  | cons e es1 ih =>
    intro s
    simp only [List.cons_append, runEdits]
    cases applyEdit e s with
    | none => rfl
    | some s1 => exact ih s1

theorem validEdits_append (es1 es2 : List Edit) :
    ∀ t : List Word, validEdits (es1 ++ es2) t =
      (validEdits es1 t && validEdits es2 (docAfter es1 t)) := by
  induction es1 with
  | nil => intro t; simp [validEdits, docAfter]
  | cons e es1 ih => intro t; simp [validEdits, docAfter, ih, Bool.and_assoc]

theorem redo_redoStack_nil (s : State) (h : s.redoStack = []) :
    redo s = some (false, s) := by
  simp [redo, pop, h]

theorem undo_undoStack_nil (s : State) (h : s.undoStack = []) :
    undo s = some (false, s) := by
  simp [undo, pop, h]

theorem record_redoStack (a : Action) (s s2 : State) (h : record a s = some s2) :
    s2.redoStack = [] := by
  unfold record at h
  split at h
  · simp at h
  · simp only [Option.some.injEq] at h
    subst h
    exact clearStack_eq _

/-- After at most five position-valid edits from a consistent state, as many calls of
`undo()` all take the non-empty branch and give back the starting document. -/
theorem undoTimes_after_edits (es : List Edit) (text : List Word) (u r : List Action)
    (hu : u.length ≤ 5) (hv : validEdits es text = true) (hN : es.length ≤ 5) :
    runEdits es
        { textHead := text, undoStack := u, redoStack := r, undoCount := (u.length : Int) } =
      some
        { textHead := docAfter es text,
          undoStack := (actionsOf es text).reverse ++ u.take (5 - es.length),
          redoStack := if es.isEmpty then r else [],
          undoCount := (((actionsOf es text).reverse ++ u.take (5 - es.length)).length : Int) }
      ∧
      undoTimes es.length
        { textHead := docAfter es text,
          undoStack := (actionsOf es text).reverse ++ u.take (5 - es.length),
          redoStack := if es.isEmpty then r else [],
          undoCount := (((actionsOf es text).reverse ++ u.take (5 - es.length)).length : Int) }
        = some (List.replicate es.length true,
          { textHead := text,
            undoStack := u.take (5 - es.length),
            redoStack := actionsOf es text ++ (if es.isEmpty then r else []),
            undoCount := ((u.take (5 - es.length)).length : Int) }) := by
  have hrec := validEdits_allRecorded es text hv
  have hlen := actionsOf_length es text hrec
  have htake : ((actionsOf es text).reverse ++ u).take 5 =
      (actionsOf es text).reverse ++ u.take (5 - es.length) := by
    rw [List.take_append_eq_append_take, List.length_reverse, hlen,
      List.take_of_length_le (by rw [List.length_reverse, hlen]; exact hN)]
  have hs : Consistent
      { textHead := text, undoStack := u, redoStack := r, undoCount := (u.length : Int) } :=
    ⟨rfl, by simp only [MAX_UNDO]; omega⟩
  refine ⟨by rw [runEdits_recorded es _ hs hrec, htake], ?_⟩
  have h := undoTimes_append (actionsOf es text).reverse (docAfter es text)
    (u.take (5 - es.length)) (if es.isEmpty then r else [])
    ((((actionsOf es text).reverse ++ u.take (5 - es.length)).length : Int))
  rw [List.length_reverse, hlen, foldl_undoApply_actionsOf es text hv,
    List.reverse_reverse] at h
  rw [h]
  congr 3
  rw [List.length_append, List.length_reverse, hlen]
  push_cast
  ring

/-! ## Reachable states -/

theorem clearText_eq (t : List Word) : clearText t = [] := by
  induction t with
  | nil => rfl
  | cons _ _ ih => simpa [clearText] using ih

theorem insertWordAt_end (w : Word) (text : List Word) :
    insertWordAt w (wordCount text + 1) text = text ++ [w] := by
  rw [insertWordAt_eq, wordCount_eq]
  have h : ((text.length : Int) + 1 - 1).toNat = text.length := by omega
  rw [h, List.take_length, List.drop_length]

theorem loadLoop_eq (ws : List Word) :
    ∀ text : List Word, ws.all fits = true → loadLoop ws text = some (text ++ ws) := by
  induction ws with
  | nil => intro text _; simp [loadLoop]
  | cons w ws ih =>
    intro text h
    simp only [List.all_cons, Bool.and_eq_true] at h
    simp [loadLoop, h.1, insertWordAt_end, ih _ h.2]

theorem loadLoop_none (ws : List Word) :
    ∀ text : List Word, ws.all fits = false → loadLoop ws text = none := by
  induction ws with
  | nil => intro text h; simp at h
  | cons w ws ih =>
    intro text h
    by_cases hw : fits w = true
    · have h2 : ws.all fits = false := by
        simpa [List.all_cons, hw] using h
      simp only [loadLoop, hw, if_true]
      exact ih _ h2
    · simp [loadLoop, hw]

theorem loadFromFile_some (ws : List Word) (s : State) (h : ws.all fits = true) :
    loadFromFile (some ws) s =
      some { textHead := ws, undoStack := [], redoStack := [], undoCount := 0 } := by
  simp [loadFromFile, loadLoop_eq ws _ h, clearText_eq, clearStack_eq]

theorem loadFromFile_history (ws : List Word) (s s1 : State)
    (h : loadFromFile (some ws) s = some s1) :
    s1.undoStack = [] ∧ s1.redoStack = [] ∧ s1.undoCount = 0 := by
  simp only [loadFromFile] at h
  split at h
  · simp at h
  · simp only [Option.some.injEq] at h
    subst h
    exact ⟨clearStack_eq _, clearStack_eq _, rfl⟩

theorem seedToken_some (w : Word) (s s1 : State) (h : seedToken w s = some s1) :
    fits w = true ∧
      record { type := INSERT, word := w,
               position := wordCount (insertWordAt w (wordCount s.textHead + 1) s.textHead) }
        { s with textHead := insertWordAt w (wordCount s.textHead + 1) s.textHead }
        = some s1 := by
  simp only [seedToken] at h
  split at h
  · rename_i hf
    exact ⟨hf, h⟩
  · simp at h

theorem HistoryInv.consistent {s : State} (h : HistoryInv s) : Consistent s :=
  ⟨h.1, by have := h.2; simp only [MAX_UNDO]; omega⟩

theorem historyInv_record (a : Action) (s s1 : State) (h : HistoryInv s)
    (hr : record a s = some s1) : HistoryInv s1 := by
  rw [record_consistent a s h.consistent, Option.some.injEq] at hr
  subst hr
  refine ⟨rfl, ?_⟩
  simp only [List.length_take, List.length_nil]
  omega

theorem historyInv_applyEdit (e : Edit) (s s1 : State) (h : HistoryInv s)
    (he : applyEdit e s = some s1) : HistoryInv s1 := by
  cases e with
  | ins w p =>
    have hs : HistoryInv { s with textHead := insertWordAt w p s.textHead } := h
    exact historyInv_record _ _ _ hs he
  | del p =>
    simp only [applyEdit, editDelete] at he
    split at he
    · rename_i removed text _
      have hs : HistoryInv { s with textHead := text } := h
      exact historyInv_record _ _ _ hs he
    · simp only [Option.some.injEq] at he
      subst he
      exact h

theorem historyInv_undo (s s1 : State) (ok : Bool) (h : HistoryInv s)
    (hu : undo s = some (ok, s1)) : HistoryInv s1 := by
  obtain ⟨text, u, r, c⟩ := s
  obtain ⟨hc, hle⟩ := h
  simp only at hc hle
  cases u with
  | nil =>
    simp only [undo, pop, Option.some.injEq, Prod.mk.injEq] at hu
    rw [← hu.2]
    exact ⟨hc, hle⟩
  | cons a u =>
    rw [undo_cons, Option.some.injEq, Prod.mk.injEq] at hu
    rw [← hu.2]
    simp only [List.length_cons] at hc hle
    refine ⟨?_, ?_⟩
    · simp only [hc]; push_cast; ring
    · simp only [List.length_cons]; omega

theorem historyInv_redo (s s1 : State) (ok : Bool) (h : HistoryInv s)
    (hr : redo s = some (ok, s1)) : HistoryInv s1 := by
  obtain ⟨text, u, r, c⟩ := s
  obtain ⟨hc, hle⟩ := h
  simp only at hc hle
  cases r with
  | nil =>
    simp only [redo, pop, Option.some.injEq, Prod.mk.injEq] at hr
    rw [← hr.2]
    exact ⟨hc, hle⟩
  | cons a r =>
    simp only [List.length_cons] at hle
    rw [redo_cons text a u r c hc (by omega), Option.some.injEq, Prod.mk.injEq] at hr
    rw [← hr.2]
    refine ⟨rfl, ?_⟩
    simp only [List.length_take, List.length_cons]
    omega

/-- Every reachable state satisfies the history invariant. -/
theorem reachable_historyInv (s : State) (h : Reachable s) : HistoryInv s := by
  induction h with
  | start => exact ⟨rfl, by simp [initState]⟩
  | seed w s s1 _ hs ih =>
    have hs0 : HistoryInv
        { s with textHead := insertWordAt w (wordCount s.textHead + 1) s.textHead } := ih
    exact historyInv_record _ _ _ hs0 (seedToken_some w s s1 hs).2
  | edit e s s1 _ he ih => exact historyInv_applyEdit e s s1 ih he
  | undo s s1 ok _ hu ih => exact historyInv_undo s s1 ok ih hu
  | redo s s1 ok _ hr ih => exact historyInv_redo s s1 ok ih hr
  | load ws s s1 _ hl _ =>
    obtain ⟨hu, hr, hc⟩ := loadFromFile_history ws s s1 hl
    exact ⟨by rw [hc, hu]; rfl, by rw [hu, hr]; simp⟩

theorem undo_total (s : State) : ∃ ok s1, undo s = some (ok, s1) := by
  obtain ⟨text, u, r, c⟩ := s
  cases u with
  | nil => exact ⟨false, _, rfl⟩
  | cons a u => exact ⟨true, _, undo_cons text a u r c⟩

theorem redo_total (s : State) (h : HistoryInv s) : ∃ ok s1, redo s = some (ok, s1) := by
  obtain ⟨text, u, r, c⟩ := s
  obtain ⟨hc, hle⟩ := h
  simp only at hc hle
  cases r with
  | nil => exact ⟨false, _, rfl⟩
  | cons a r => exact ⟨true, _, redo_cons text a u r c hc (by omega)⟩

/-- With an action waiting on the redo stack, `redo` puts it on top of the undo stack and
keeps every entry below it. -/
theorem redo_no_eviction (s : State) (h : HistoryInv s) (a : Action) (r : List Action)
    (hr : s.redoStack = a :: r) :
    redo s = some (true, { textHead := redoApply a s.textHead, undoStack := a :: s.undoStack,
                           redoStack := r, undoCount := s.undoCount + 1 }) := by
  obtain ⟨text, u, r0, c⟩ := s
  obtain ⟨hc, hle⟩ := h
  simp only at hc hle hr
  subst hr
  simp only [List.length_cons] at hle
  have ht : (a :: u).take 5 = a :: u := List.take_of_length_le (by simp; omega)
  rw [redo_cons text a u r c hc (by omega), ht, hc]
  simp

theorem reachable_runCmds (cmds : List Cmd) :
    ∀ s : State, Reachable s → ∃ s1, runCmds cmds s = some s1 ∧ Reachable s1 := by
  induction cmds with
  | nil => intro s hs; exact ⟨s, rfl, hs⟩
  | cons c cmds ih =>
    intro s hs
    cases c with
    | undo =>
      obtain ⟨ok, s1, h1⟩ := undo_total s
      obtain ⟨s2, h2, hr2⟩ := ih s1 (Reachable.undo s s1 ok hs h1)
      exact ⟨s2, by simp [runCmds, runCmd, h1, h2], hr2⟩
    | redo =>
      obtain ⟨ok, s1, h1⟩ := redo_total s (reachable_historyInv s hs)
      obtain ⟨s2, h2, hr2⟩ := ih s1 (Reachable.redo s s1 ok hs h1)
      exact ⟨s2, by simp [runCmds, runCmd, h1, h2], hr2⟩

theorem reachable_seedLoop (ws : List Word) :
    ∀ s s1 : State, Reachable s → seedLoop ws s = some s1 → Reachable s1 := by
  induction ws with
  | nil =>
    intro s s1 hs h
    simp only [seedLoop, Option.some.injEq] at h
    exact h ▸ hs
  | cons w ws ih =>
    intro s s1 hs h
    simp only [seedLoop] at h
    split at h
    · rename_i s2 h2
      exact ih s2 s1 (Reachable.seed w s s2 hs h2) h
    · simp at h

theorem reachable_runEdits (es : List Edit) :
    ∀ s s1 : State, Reachable s → runEdits es s = some s1 → Reachable s1 := by
  induction es with
  | nil =>
    intro s s1 hs h
    simp only [runEdits, Option.some.injEq] at h
    exact h ▸ hs
  | cons e es ih =>
    intro s s1 hs h
    simp only [runEdits] at h
    split at h
    · rename_i s2 h2
      exact ih s2 s1 (Reachable.edit e s s2 hs h2) h
    · simp at h

theorem redoEvicts_false (s : State) (h : HistoryInv s) : redoEvicts s = false := by
  obtain ⟨text, u, r, c⟩ := s
  obtain ⟨hc, hle⟩ := h
  simp only at hc hle
  cases r with
  | nil => rfl
  | cons a r =>
    simp only [List.length_cons] at hle
    simp only [redoEvicts, pop, decide_eq_false_iff_not, MAX_UNDO, hc]
    omega

/-! ## The seeding loop as a run of edits -/

theorem record_textHead (a : Action) (s s1 : State) (h : record a s = some s1) :
    s1.textHead = s.textHead := by
  unfold record at h
  split at h
  · simp at h
  · simp only [Option.some.injEq] at h
    subst h
    rfl

theorem seedToken_eq (w : Word) (s : State) (hf : fits w = true) :
    seedToken w s = applyEdit (Edit.ins w ((s.textHead.length : Int) + 1)) s := by
  have hpos : wordCount (insertWordAt w (wordCount s.textHead + 1) s.textHead) =
      (s.textHead.length : Int) + 1 := by
    rw [insertWordAt_end, wordCount_eq]
    simp
  simp only [seedToken, hf, if_true, applyEdit, editInsert, hpos]
  rw [wordCount_eq]

theorem seedLoop_eq (ws : List Word) :
    ∀ s : State, ws.all fits = true →
      seedLoop ws s = runEdits (seedEdits s.textHead.length ws) s := by
  induction ws with
  | nil => intro s _; rfl
  | cons w ws ih =>
    intro s hf
    simp only [List.all_cons, Bool.and_eq_true] at hf
    simp only [seedLoop, seedEdits, runEdits, seedToken_eq w s hf.1]
    cases h : applyEdit (Edit.ins w ((s.textHead.length : Int) + 1)) s with
    | none => rfl
    | some s1 =>
      have ht : s1.textHead.length = s.textHead.length + 1 := by
        have h2 := record_textHead _ _ _ h
        rw [h2]
        show (insertWordAt w ((s.textHead.length : Int) + 1) s.textHead).length = _
        rw [← wordCount_eq, insertWordAt_end]
        simp
      simp only [ih s1 hf.2, ht]

theorem seedLoop_none (ws : List Word) :
    ∀ s : State, ws.all fits = false → seedLoop ws s = none := by
  induction ws with
  | nil => intro s h; simp at h
  | cons w ws ih =>
    intro s h
    by_cases hw : fits w = true
    · have h2 : ws.all fits = false := by
        simpa [List.all_cons, hw] using h
      simp only [seedLoop]
      cases seedToken w s with
      | none => rfl
      | some s1 => exact ih s1 h2
    · simp [seedLoop, seedToken, hw]

theorem seedEdits_append (xs ys : List Word) :
    ∀ base : Nat, seedEdits base (xs ++ ys) =
      seedEdits base xs ++ seedEdits (base + xs.length) ys := by
  induction xs with
  | nil => intro base; simp [seedEdits]
  | cons x xs ih =>
    intro base
    have h : base + 1 + xs.length = base + (xs.length + 1) := by omega
    rw [List.cons_append, List.length_cons, ← h]
    show Edit.ins x ((base : Int) + 1) :: seedEdits (base + 1) (xs ++ ys) =
      Edit.ins x ((base : Int) + 1) ::
        (seedEdits (base + 1) xs ++ seedEdits (base + 1 + xs.length) ys)
    rw [ih]

theorem seedEdits_length (ws : List Word) :
    ∀ base : Nat, (seedEdits base ws).length = ws.length := by
  induction ws with
  | nil => intro base; rfl
  | cons w ws ih => intro base; simp [seedEdits, ih]

theorem docAfter_seedEdits (ws : List Word) :
    ∀ t : List Word, docAfter (seedEdits t.length ws) t = t ++ ws := by
  induction ws with
  | nil => intro t; simp [seedEdits, docAfter]
  | cons w ws ih =>
    intro t
    have h := ih (t ++ [w])
    rw [List.length_append, List.length_singleton] at h
    simp only [seedEdits, docAfter, docStep, ← wordCount_eq, insertWordAt_end, h,
      List.append_assoc, List.singleton_append]

theorem validEdits_seedEdits (ws : List Word) :
    ∀ t : List Word, validEdits (seedEdits t.length ws) t = true := by
  induction ws with
  | nil => intro t; rfl
  | cons w ws ih =>
    intro t
    have h := ih (t ++ [w])
    rw [List.length_append, List.length_singleton] at h
    simp only [seedEdits, validEdits, editValid, docStep, Bool.and_eq_true,
      decide_eq_true_eq]
    refine ⟨⟨?_, ?_⟩, ?_⟩
    · show (1 : Int) ≤ (t.length : Int) + 1
      omega
    · rw [wordCount_eq]
    · rw [← wordCount_eq, insertWordAt_end]
      exact h

theorem actionsOf_append (es1 es2 : List Edit) :
    ∀ t : List Word, actionsOf (es1 ++ es2) t =
      actionsOf es1 t ++ actionsOf es2 (docAfter es1 t) := by
  induction es1 with
  | nil => intro t; simp [actionsOf, docAfter]
  | cons e es1 ih => intro t; simp [actionsOf, docAfter, ih]

theorem runEdits_recorded_mk (es : List Edit) (text : List Word) (u r : List Action)
    (hu : u.length ≤ 5) (hrec : allRecorded es text = true) :
    runEdits es
        { textHead := text, undoStack := u, redoStack := r, undoCount := (u.length : Int) } =
      some
        { textHead := docAfter es text,
          undoStack := ((actionsOf es text).reverse ++ u).take 5,
          redoStack := if es.isEmpty then r else [],
          undoCount := ((((actionsOf es text).reverse ++ u).take 5).length : Int) } :=
  runEdits_recorded es _ ⟨rfl, by simp only [MAX_UNDO]; omega⟩ hrec

/-- The state after seeding `ws` from the start state and then calling `undo()` `k` times,
for `k` at most the number of words and at most five. -/
theorem seedLoop_undoTimes (ws : List Word) (k : Nat) (hfit : ws.all fits = true)
    (hk : k ≤ ws.length) (hk5 : k ≤ 5) :
    ∃ s1 U R c, seedLoop ws initState = some s1 ∧ s1.textHead = ws ∧
      undoTimes k s1 = some (List.replicate k true,
        { textHead := ws.take (ws.length - k), undoStack := U, redoStack := R,
          undoCount := c }) ∧
      (k < 5 → k < ws.length → ∃ w rest, ws[ws.length - 1 - k]? = some w ∧
        U = { type := INSERT, word := w, position := ((ws.length - k : Nat) : Int) } :: rest)
    := by
  have hsplit : ws.take (ws.length - k) ++ ws.drop (ws.length - k) = ws :=
    List.take_append_drop _ _
  have hl1 : (ws.take (ws.length - k)).length = ws.length - k := by
    rw [List.length_take]; omega
  have hl2 : (ws.drop (ws.length - k)).length = k := by
    rw [List.length_drop]; omega
  have hE : seedEdits 0 ws = seedEdits 0 (ws.take (ws.length - k)) ++
      seedEdits (ws.take (ws.length - k)).length (ws.drop (ws.length - k)) := by
    have h := seedEdits_append (ws.take (ws.length - k)) (ws.drop (ws.length - k)) 0
    rw [hsplit, Nat.zero_add] at h
    exact h
  have hv1 : validEdits (seedEdits 0 (ws.take (ws.length - k))) [] = true :=
    validEdits_seedEdits _ []
  have hd1 : docAfter (seedEdits 0 (ws.take (ws.length - k))) [] = ws.take (ws.length - k) := by
    have h := docAfter_seedEdits (ws.take (ws.length - k)) []
    simpa using h
  have hv2 : validEdits (seedEdits (ws.take (ws.length - k)).length (ws.drop (ws.length - k)))
      (ws.take (ws.length - k)) = true := validEdits_seedEdits _ _
  have hd2 : docAfter (seedEdits (ws.take (ws.length - k)).length (ws.drop (ws.length - k)))
      (ws.take (ws.length - k)) = ws := by
    rw [docAfter_seedEdits, hsplit]
  have ha := runEdits_recorded_mk (seedEdits 0 (ws.take (ws.length - k))) [] [] []
    (by simp) (validEdits_allRecorded _ _ hv1)
  rw [hd1, List.append_nil] at ha
  obtain ⟨hb, hc⟩ := undoTimes_after_edits
    (seedEdits (ws.take (ws.length - k)).length (ws.drop (ws.length - k)))
    (ws.take (ws.length - k))
    ((actionsOf (seedEdits 0 (ws.take (ws.length - k))) []).reverse.take 5)
    (if (seedEdits 0 (ws.take (ws.length - k))).isEmpty then [] else [])
    (by rw [List.length_take]; omega) hv2 (by rw [seedEdits_length, hl2]; exact hk5)
  rw [hd2] at hb hc
  rw [seedEdits_length, hl2] at hc hb
  have hrun := seedLoop_eq ws initState hfit
  change seedLoop ws initState = runEdits (seedEdits 0 ws)
    { textHead := [], undoStack := [], redoStack := [],
      undoCount := ((([] : List Action).length : Nat) : Int) } at hrun
  rw [hE, runEdits_append, ha, Option.some_bind, hb] at hrun
  refine ⟨_, _, _, _, hrun, rfl, hc, ?_⟩
  intro hk4 hkn
  have hne : ws.take (ws.length - k) ≠ [] := by
    intro h
    rw [h] at hl1
    simp at hl1
    omega
  obtain ⟨ys, w, hyw⟩ : ∃ ys w, ws.take (ws.length - k) = ys ++ [w] :=
    ⟨_, _, (List.dropLast_append_getLast hne).symm⟩
  have hly : ys.length + 1 = ws.length - k := by
    rw [← hl1, hyw]; simp
  have hw : ws[ws.length - 1 - k]? = some w := by
    have h1 : (ws.take (ws.length - k))[ys.length]? = some w := by
      rw [hyw]; simp
    rw [List.getElem?_take] at h1
    have h2 : ys.length = ws.length - 1 - k := by omega
    rw [h2] at h1
    split at h1
    · exact h1
    · simp at h1
  have hact : actionsOf (seedEdits 0 (ws.take (ws.length - k))) [] =
      actionsOf (seedEdits 0 ys) [] ++
        [{ type := INSERT, word := w, position := ((ws.length - k : Nat) : Int) }] := by
    rw [hyw, seedEdits_append, actionsOf_append]
    simp only [seedEdits, actionsOf, actionOf, Option.toList_some, List.append_nil,
      Nat.zero_add]
    congr 3
    omega
  have h5 : 5 - k = (4 - k) + 1 := by omega
  have hU : ((actionsOf (seedEdits 0 (ws.take (ws.length - k))) []).reverse.take 5).take (5 - k)
      = { type := INSERT, word := w, position := ((ws.length - k : Nat) : Int) } ::
        ((actionsOf (seedEdits 0 ys) []).reverse.take 4).take (4 - k) := by
    rw [hact, List.reverse_append, List.reverse_singleton, List.singleton_append,
      List.take_succ_cons, h5, List.take_succ_cons]
  exact ⟨w, _, hw, hU⟩

/-! ## Document contracts -/

/-- C6. Insert/delete inverse law: on a document of length `n = wordCount text`, for a
position `1 ≤ p ≤ n + 1`, `insertWordAt(w, p)` followed by `deleteWordAt(p)` returns 1,
hands back `w`, and leaves exactly the document from before the insert. -/
theorem insert_delete_inverse (text : List Word) (w : Word) (p : Int)
    (h1 : 1 ≤ p) (h2 : p ≤ wordCount text + 1) :
    deleteWordAt p (insertWordAt w p text) = (some w, text) := by
  rw [wordCount_eq] at h2
  exact deleteWordAt_insertWordAt w p text h1 h2

theorem insert_delete_inverse_witness :
    deleteWordAt 2 (insertWordAt "x" 2 ["a", "b"]) = (some "x", ["a", "b"]) :=
  insert_delete_inverse ["a", "b"] "x" 2 (by decide) (by decide)

/-- C7 (failing input). `deleteWordAt(0)` on the two-word document `[a, b]` returns 1 and
removes the second word `b`, although position 0 references no word. -/
theorem deleteWordAt_zero_removes_second :
    deleteWordAt 0 ["a", "b"] = (some "b", ["a"]) := by
  decide

/-- C8. Delete beyond the end: on a document of length `n = wordCount text`, for every
position `p > n`, `deleteWordAt(p)` returns 0 and the document keeps the same `n` words in
the same order. -/
theorem delete_beyond_end_fails (text : List Word) (p : Int) (h : wordCount text < p) :
    deleteWordAt p text = (none, text) ∧
      wordCount (deleteWordAt p text).2 = wordCount text := by
  rw [wordCount_eq] at h
  rw [deleteWordAt_beyond p text h]
  exact ⟨rfl, rfl⟩

theorem delete_beyond_end_fails_witness :
    deleteWordAt 5 ["a", "b", "c"] = (none, ["a", "b", "c"]) ∧
      wordCount (deleteWordAt 5 ["a", "b", "c"]).2 = wordCount ["a", "b", "c"] :=
  delete_beyond_end_fails ["a", "b", "c"] 5 (by decide)

/-- C9. Successful delete: on a document of length `n ≥ 1`, for `1 ≤ p ≤ n`,
`deleteWordAt(p)` returns 1 with the word that was at 1-based position `p`; the document
afterwards is the original one with exactly that element erased, so its length is `n - 1`;
for `p = 1` this is the document without its head. -/
theorem delete_success_post (text : List Word) (p : Int)
    (h1 : 1 ≤ p) (h2 : p ≤ wordCount text) :
    ∃ w, text[(p - 1).toNat]? = some w ∧
      deleteWordAt p text = (some w, text.eraseIdx (p - 1).toNat) ∧
      wordCount (deleteWordAt p text).2 = wordCount text - 1 ∧
      (p = 1 → deleteWordAt p text = (text.head?, text.tail)) := by
  rw [wordCount_eq] at h2
  obtain ⟨w, hw, hdel⟩ := deleteWordAt_valid p text h1 h2
  refine ⟨w, hw, hdel, ?_, ?_⟩
  · have hlt : (p - 1).toNat < text.length := by omega
    rw [hdel, wordCount_eq, wordCount_eq]
    simp only [List.length_eraseIdx, if_pos hlt]
    omega
  · intro hp
    subst hp
    cases text with
    | nil => simp [wordCount_eq] at h2
    | cons t rest => simp [deleteWordAt]

theorem delete_success_post_witness :
    ∃ w, (["a", "b", "c"] : List Word)[((2 : Int) - 1).toNat]? = some w ∧
      deleteWordAt 2 ["a", "b", "c"] = (some w, (["a", "b", "c"] : List Word).eraseIdx
        ((2 : Int) - 1).toNat) ∧
      wordCount (deleteWordAt 2 ["a", "b", "c"]).2 = wordCount ["a", "b", "c"] - 1 ∧
      ((2 : Int) = 1 → deleteWordAt 2 ["a", "b", "c"] =
        ((["a", "b", "c"] : List Word).head?, (["a", "b", "c"] : List Word).tail)) :=
  delete_success_post ["a", "b", "c"] 2 (by decide) (by decide)

/-- C10. Insert with clamping: on a document of length `n`, for every word `w` and every
integer `p`, `insertWordAt(w, p)` gives a document of length `n + 1` that has `w` at
1-based position `k = min (max p 1) (n + 1)`, the `k - 1` words before it and the words
after it being the original ones in order: erasing position `k` gives back the original
document. -/
theorem insert_post_clamped (text : List Word) (w : Word) (p : Int) :
    wordCount (insertWordAt w p text) = wordCount text + 1 ∧
      (insertWordAt w p text)[(min (max p 1) (wordCount text + 1) - 1).toNat]? = some w ∧
      (insertWordAt w p text).eraseIdx (min (max p 1) (wordCount text + 1) - 1).toNat
        = text ∧
      insertWordAt w p text =
        text.take (min (max p 1) (wordCount text + 1) - 1).toNat ++
          w :: text.drop (min (max p 1) (wordCount text + 1) - 1).toNat := by
  have hk : (min (max p 1) (wordCount text + 1) - 1).toNat ≤ text.length := by
    rw [wordCount_eq]; omega
  have hform : insertWordAt w p text =
      text.take (min (max p 1) (wordCount text + 1) - 1).toNat ++
        w :: text.drop (min (max p 1) (wordCount text + 1) - 1).toNat := by
    rw [insertWordAt_eq]
    by_cases hp : p - 1 ≤ text.length
    · have : (min (max p 1) (wordCount text + 1) - 1).toNat = (p - 1).toNat := by
        rw [wordCount_eq]; omega
      rw [this]
    · have h1 : text.length ≤ (p - 1).toNat := by omega
      have h2 : (min (max p 1) (wordCount text + 1) - 1).toNat = text.length := by
        rw [wordCount_eq]; omega
      rw [h2, List.take_of_length_le h1, List.drop_of_length_le h1, List.take_length,
        List.drop_length]
  refine ⟨?_, ?_, ?_, hform⟩
  · rw [hform, wordCount_eq, wordCount_eq]
    simp only [List.length_append, List.length_take, List.length_cons, List.length_drop]
    omega
  · rw [hform]; exact getElem?_take_append_cons text w _ hk
  · rw [hform]; exact eraseIdx_take_append_cons text w _ hk

/-! ## Empty history -/

/-- C5. Empty-history no-ops: with an empty undo stack `undo()` takes its early return and
the whole state (document, redo stack, undo count) is unchanged; with an empty redo stack
`redo()` takes its early return and the whole state (document, undo stack, undo count) is
unchanged. -/
theorem empty_history_noop (text : List Word) (st : List Action) (c : Int) :
    undo { textHead := text, undoStack := [], redoStack := st, undoCount := c }
        = some (false, { textHead := text, undoStack := [], redoStack := st, undoCount := c })
      ∧ redo { textHead := text, undoStack := st, redoStack := [], undoCount := c }
        = some (false, { textHead := text, undoStack := st, redoStack := [], undoCount := c })
    := by
  exact ⟨rfl, rfl⟩

/-! ## History contracts -/

/-- Undo/redo round trip on position-valid edits: from every session state whose
`undoCount` is the size of its undo stack (at most `MAX_UNDO`), for every sequence of
`N ≤ MAX_UNDO` recorded edits, each an `insertWordAt(w, p)` with `1 ≤ p ≤ length + 1`
recorded as `Insert{w, p}` or a `deleteWordAt(p)` with `1 ≤ p ≤ length` recorded as
`Delete{removed, p}`, the edits run, `N` calls of `undo()` followed by `N` calls of
`redo()` all take their non-empty branch, and the document (indeed the whole state) is
the one right after the edits. -/
theorem undo_redo_round_trip (s : State) (es : List Edit) (hs : Consistent s)
    (hv : validEdits es s.textHead = true) (hN : (es.length : Int) ≤ MAX_UNDO) :
    ∃ s1 s2 s3, runEdits es s = some s1 ∧
      undoTimes es.length s1 = some (List.replicate es.length true, s2) ∧
      redoTimes es.length s2 = some (List.replicate es.length true, s3) ∧
      s3.textHead = s1.textHead ∧ s3 = s1 := by
  have hN5 : es.length ≤ 5 := by unfold MAX_UNDO at hN; omega
  obtain ⟨text, u, r, c⟩ := s
  obtain ⟨hc, hu⟩ := hs
  simp only at hc hu hv
  subst hc
  have hu5 : u.length ≤ 5 := by unfold MAX_UNDO at hu; omega
  obtain ⟨h1, h2⟩ := undoTimes_after_edits es text u r hu5 hv hN5
  have hrec := validEdits_allRecorded es text hv
  have hlen := actionsOf_length es text hrec
  have h3 := redoTimes_append (actionsOf es text) text
    (u.take (5 - es.length)) (if es.isEmpty then r else [])
    (by rw [hlen, List.length_take]; omega)
  rw [hlen, foldl_redoApply_actionsOf es text hrec] at h3
  exact ⟨_, _, _, h1, h2, h3, rfl, rfl⟩

theorem undo_redo_round_trip_witness :
    ∃ s1 s2 s3,
      runEdits [Edit.ins "x" 2, Edit.del 1]
        { textHead := ["a", "b"], undoStack := [], redoStack := [], undoCount := 0 }
        = some s1 ∧
      undoTimes [Edit.ins "x" 2, Edit.del 1].length s1 =
        some (List.replicate [Edit.ins "x" 2, Edit.del 1].length true, s2) ∧
      redoTimes [Edit.ins "x" 2, Edit.del 1].length s2 =
        some (List.replicate [Edit.ins "x" 2, Edit.del 1].length true, s3) ∧
      s3.textHead = s1.textHead ∧ s3 = s1 :=
  undo_redo_round_trip
    { textHead := ["a", "b"], undoStack := [], redoStack := [], undoCount := 0 }
    [Edit.ins "x" 2, Edit.del 1] (by decide) (by decide) (by decide)

/-- C1 (failing input). On the document `[a, b]` with an empty history, `deleteWordAt(0)`
is a successful delete (it returns 1 and removes `b`, where a position below 1 should be
refused); recorded as `Delete{b, 0}`, one `undo()` gives `[b, a]` and one `redo()` gives
`[b]`, which is not the document `[a]` right after the edit. -/
theorem round_trip_fails_after_delete_at_zero :
    (deleteWordAt 0 ["a", "b"]).1 = some "b" ∧
      runEdits [Edit.del 0]
          { textHead := ["a", "b"], undoStack := [], redoStack := [], undoCount := 0 } =
        some { textHead := ["a"],
               undoStack := [{ type := DELETE, word := "b", position := 0 }],
               redoStack := [], undoCount := 1 } ∧
      undoTimes 1
          { textHead := ["a"],
            undoStack := [{ type := DELETE, word := "b", position := 0 }],
            redoStack := [], undoCount := 1 } =
        some ([true],
          { textHead := ["b", "a"], undoStack := [],
            redoStack := [{ type := DELETE, word := "b", position := 0 }],
            undoCount := 0 }) ∧
      redoTimes 1
          { textHead := ["b", "a"], undoStack := [],
            redoStack := [{ type := DELETE, word := "b", position := 0 }],
            undoCount := 0 } =
        some ([true],
          { textHead := ["b"],
            undoStack := [{ type := DELETE, word := "b", position := 0 }],
            redoStack := [], undoCount := 1 }) ∧
      (["b"] : List Word) ≠ ["a"] := by
  decide

/-- C2. Undo reverses edits in LIFO order: from a document `D` with an empty history,
after `N ≤ MAX_UNDO` position-valid recorded edits (insert at `1 ≤ p ≤ length + 1`,
delete at an existing position `1 ≤ p ≤ length`, hence successful), for every `j ≤ N`
the first `j` calls of `undo()` all take the non-empty branch and leave exactly the
document that the first `N - j` edits had produced; after `N` calls it is exactly `D`. -/
theorem undo_reverses_lifo (D : List Word) (es : List Edit)
    (hv : validEdits es D = true) (hN : (es.length : Int) ≤ MAX_UNDO) :
    ∃ s1, runEdits es
        { textHead := D, undoStack := [], redoStack := [], undoCount := 0 } = some s1 ∧
      (∀ j, j ≤ es.length → ∃ sj sk,
        undoTimes j s1 = some (List.replicate j true, sj) ∧
        runEdits (es.take (es.length - j))
          { textHead := D, undoStack := [], redoStack := [], undoCount := 0 } = some sk ∧
        sj.textHead = sk.textHead) ∧
      ∃ s2, undoTimes es.length s1 = some (List.replicate es.length true, s2) ∧
        s2.textHead = D := by
  have hN5 : es.length ≤ 5 := by unfold MAX_UNDO at hN; omega
  have hs0 : ({ textHead := D, undoStack := [], redoStack := [], undoCount := 0 } : State) =
      { textHead := D, undoStack := [], redoStack := [],
        undoCount := ((([] : List Action).length : Nat) : Int) } := rfl
  rw [hs0]
  obtain ⟨h1, h2⟩ := undoTimes_after_edits es D [] [] (by simp) hv hN5
  refine ⟨_, h1, ?_, _, h2, rfl⟩
  intro j hj
  have hsplit : es.take (es.length - j) ++ es.drop (es.length - j) = es :=
    List.take_append_drop _ _
  have hv' := hv
  rw [← hsplit, validEdits_append, Bool.and_eq_true] at hv'
  have hl1 : (es.take (es.length - j)).length ≤ 5 := by
    rw [List.length_take]; omega
  have hl2 : (es.drop (es.length - j)).length = j := by
    rw [List.length_drop]; omega
  obtain ⟨ha, _⟩ := undoTimes_after_edits (es.take (es.length - j)) D [] [] (by simp)
    hv'.1 hl1
  have hlen1 := actionsOf_length _ _ (validEdits_allRecorded _ _ hv'.1)
  obtain ⟨hb, hc⟩ := undoTimes_after_edits (es.drop (es.length - j))
    (docAfter (es.take (es.length - j)) D)
    ((actionsOf (es.take (es.length - j)) D).reverse ++
      ([] : List Action).take (5 - (es.take (es.length - j)).length))
    (if (es.take (es.length - j)).isEmpty then [] else [])
    (by simp only [List.take_nil, List.append_nil, List.length_reverse, hlen1]; exact hl1)
    hv'.2 (by omega)
  have hrun := runEdits_append (es.take (es.length - j)) (es.drop (es.length - j))
    { textHead := D, undoStack := [], redoStack := [],
      undoCount := ((([] : List Action).length : Nat) : Int) }
  rw [hsplit, h1, ha, Option.some_bind, hb, Option.some.injEq] at hrun
  rw [hl2] at hc
  rw [hrun, hl2]
  exact ⟨_, _, hc, ha, rfl⟩

theorem undo_reverses_lifo_witness :
    ∃ s1, runEdits [Edit.ins "x" 1, Edit.del 3, Edit.ins "y" 3]
        { textHead := ["a", "b"], undoStack := [], redoStack := [], undoCount := 0 }
        = some s1 ∧
      (∀ j, j ≤ [Edit.ins "x" 1, Edit.del 3, Edit.ins "y" 3].length → ∃ sj sk,
        undoTimes j s1 = some (List.replicate j true, sj) ∧
        runEdits ([Edit.ins "x" 1, Edit.del 3, Edit.ins "y" 3].take
            ([Edit.ins "x" 1, Edit.del 3, Edit.ins "y" 3].length - j))
          { textHead := ["a", "b"], undoStack := [], redoStack := [], undoCount := 0 }
          = some sk ∧
        sj.textHead = sk.textHead) ∧
      ∃ s2, undoTimes [Edit.ins "x" 1, Edit.del 3, Edit.ins "y" 3].length s1 =
          some (List.replicate [Edit.ins "x" 1, Edit.del 3, Edit.ins "y" 3].length true, s2) ∧
        s2.textHead = ["a", "b"] :=
  undo_reverses_lifo ["a", "b"] [Edit.ins "x" 1, Edit.del 3, Edit.ins "y" 3]
    (by decide) (by decide)

/-- C3. Bounded undo eviction: from an empty history, after `MAX_UNDO + k` recorded edits
(any insert; any delete that returned 1) with no undo or redo in between, one action was
recorded per edit, the undo stack holds exactly `MAX_UNDO` entries (and `undoCount` is
`MAX_UNDO`), namely the `MAX_UNDO` most recent actions, newest on top; the next `MAX_UNDO`
calls of `undo()` take the non-empty branch and the call after them takes the early
return; and when the edits are position-valid the document is then the document after the
first `k` edits, whose effects are not undone. -/
theorem bounded_undo_eviction (D : List Word) (es : List Edit) (k : Nat)
    (hlen : es.length = MAX_UNDO.toNat + k) (hrec : allRecorded es D = true) :
    ∃ s1 s2,
      runEdits es { textHead := D, undoStack := [], redoStack := [], undoCount := 0 }
        = some s1 ∧
      (actionsOf es D).length = MAX_UNDO.toNat + k ∧
      s1.undoStack = (actionsOf es D).reverse.take MAX_UNDO.toNat ∧
      (s1.undoStack.length : Int) = MAX_UNDO ∧
      s1.undoCount = MAX_UNDO ∧
      undoTimes MAX_UNDO.toNat s1 = some (List.replicate MAX_UNDO.toNat true, s2) ∧
      undo s2 = some (false, s2) ∧
      (validEdits es D = true →
        ∃ sk, runEdits (es.take k)
            { textHead := D, undoStack := [], redoStack := [], undoCount := 0 } = some sk ∧
          s2.textHead = sk.textHead) := by
  have hM : MAX_UNDO.toNat = 5 := rfl
  rw [hM] at hlen ⊢
  have hs0 : Consistent
      { textHead := D, undoStack := [], redoStack := [], undoCount := 0 } :=
    ⟨rfl, by simp [MAX_UNDO]⟩
  have hal := actionsOf_length es D hrec
  have h1 := runEdits_recorded es _ hs0 hrec
  simp only [List.append_nil] at h1
  have hl5 : ((actionsOf es D).reverse.take 5).length = 5 := by
    rw [List.length_take, List.length_reverse, hal]; omega
  have h2 := undoTimes_append ((actionsOf es D).reverse.take 5) (docAfter es D) []
    (if es.isEmpty then [] else []) ((((actionsOf es D).reverse.take 5).length : Nat) : Int)
  rw [List.append_nil, hl5] at h2
  rw [hl5] at h1
  refine ⟨_, _, h1, by rw [hal, hlen], rfl, ?_, ?_, h2, undo_undoStack_nil _ rfl, ?_⟩
  · simp only [hl5, MAX_UNDO]; rfl
  · simp only [MAX_UNDO]; rfl
  · intro hv
    have hsplit : es.take k ++ es.drop k = es := List.take_append_drop _ _
    have hv' := hv
    rw [← hsplit, validEdits_append, Bool.and_eq_true] at hv'
    have hl2 : (es.drop k).length = 5 := by rw [List.length_drop]; omega
    have ha := runEdits_recorded (es.take k) _ hs0 (validEdits_allRecorded _ _ hv'.1)
    simp only [List.append_nil] at ha
    obtain ⟨hb, hc⟩ := undoTimes_after_edits (es.drop k) (docAfter (es.take k) D)
      ((actionsOf (es.take k) D).reverse.take 5) (if (es.take k).isEmpty then [] else [])
      (by rw [List.length_take]; omega) hv'.2 (by omega)
    have hrun := runEdits_append (es.take k) (es.drop k)
      { textHead := D, undoStack := [], redoStack := [], undoCount := 0 }
    rw [hsplit, h1, ha, Option.some_bind, hb, Option.some.injEq] at hrun
    rw [hl2] at hrun hc
    rw [← hrun, h2, Option.some.injEq, Prod.mk.injEq] at hc
    exact ⟨_, ha, by rw [hc.2]⟩

theorem bounded_undo_eviction_witness :
    ∃ s1 s2,
      runEdits [Edit.ins "b" 2, Edit.ins "c" 3, Edit.del 1, Edit.ins "d" 3, Edit.ins "e" 4,
          Edit.ins "f" 5]
        { textHead := ["a"], undoStack := [], redoStack := [], undoCount := 0 } = some s1 ∧
      (actionsOf [Edit.ins "b" 2, Edit.ins "c" 3, Edit.del 1, Edit.ins "d" 3, Edit.ins "e" 4,
          Edit.ins "f" 5] ["a"]).length = MAX_UNDO.toNat + 1 ∧
      s1.undoStack = (actionsOf [Edit.ins "b" 2, Edit.ins "c" 3, Edit.del 1, Edit.ins "d" 3,
          Edit.ins "e" 4, Edit.ins "f" 5] ["a"]).reverse.take MAX_UNDO.toNat ∧
      (s1.undoStack.length : Int) = MAX_UNDO ∧
      s1.undoCount = MAX_UNDO ∧
      undoTimes MAX_UNDO.toNat s1 = some (List.replicate MAX_UNDO.toNat true, s2) ∧
      undo s2 = some (false, s2) ∧
      (validEdits [Edit.ins "b" 2, Edit.ins "c" 3, Edit.del 1, Edit.ins "d" 3, Edit.ins "e" 4,
          Edit.ins "f" 5] ["a"] = true →
        ∃ sk, runEdits ([Edit.ins "b" 2, Edit.ins "c" 3, Edit.del 1, Edit.ins "d" 3,
            Edit.ins "e" 4, Edit.ins "f" 5].take 1)
            { textHead := ["a"], undoStack := [], redoStack := [], undoCount := 0 }
            = some sk ∧
          s2.textHead = sk.textHead) :=
  bounded_undo_eviction ["a"]
    [Edit.ins "b" 2, Edit.ins "c" 3, Edit.del 1, Edit.ins "d" 3, Edit.ins "e" 4,
      Edit.ins "f" 5] 1 (by decide) (by decide)

/-- C4. Redo invalidation: after a call of `undo()` that took the non-empty branch and a
new recorded edit (an insert, or a delete that returned 1, followed by the record step),
the redo stack is empty and the next `redo()` takes its early return, leaving the whole
state (document and undo stack included) unchanged; in a state whose `undoCount` is the
size of its undo stack (at most `MAX_UNDO`) the edit does produce such a state. -/
theorem redo_invalidation (s s1 : State) (e : Edit) (hu : undo s = some (true, s1))
    (hrec : (actionOf e s1.textHead).isSome = true) :
    (∀ s2, applyEdit e s1 = some s2 →
        s2.redoStack = [] ∧ redo s2 = some (false, s2)) ∧
      (Consistent s → ∃ s2, applyEdit e s1 = some s2 ∧
        s2.redoStack = [] ∧ redo s2 = some (false, s2)) := by
  have hpart : ∀ s2, applyEdit e s1 = some s2 →
      s2.redoStack = [] ∧ redo s2 = some (false, s2) := by
    intro s2 h2
    have hnil : s2.redoStack = [] := by
      cases e with
      | ins w p => exact record_redoStack _ _ _ h2
      | del p =>
        simp only [actionOf] at hrec
        simp only [applyEdit, editDelete] at h2
        split at h2
        · exact record_redoStack _ _ _ h2
        · rename_i hdel
          simp [hdel] at hrec
    exact ⟨hnil, redo_redoStack_nil s2 hnil⟩
  refine ⟨hpart, ?_⟩
  intro hs
  obtain ⟨a, ha⟩ := Option.isSome_iff_exists.mp hrec
  have hs1 : Consistent s1 := by
    obtain ⟨text, u, r, c⟩ := s
    obtain ⟨hc, hle⟩ := hs
    simp only at hc hle
    cases u with
    | nil => simp [undo, pop] at hu
    | cons b u =>
      rw [undo_cons, Option.some.injEq, Prod.mk.injEq] at hu
      rw [← hu.2]
      refine ⟨?_, ?_⟩
      · simp only [hc, List.length_cons]; push_cast; ring
      · simp only [List.length_cons] at hle ⊢; push_cast at hle; omega
  have h2 := applyEdit_recorded e s1 a hs1 ha
  exact ⟨_, h2, hpart _ h2⟩

theorem redo_invalidation_witness :
    (∀ s2, applyEdit (Edit.ins "z" 1)
          { textHead := ["a"], undoStack := [],
            redoStack := [{ type := INSERT, word := "b", position := 2 }],
            undoCount := 0 } = some s2 →
        s2.redoStack = [] ∧ redo s2 = some (false, s2)) ∧
      (Consistent
          { textHead := ["a", "b"],
            undoStack := [{ type := INSERT, word := "b", position := 2 }],
            redoStack := [], undoCount := 1 } →
        ∃ s2, applyEdit (Edit.ins "z" 1)
          { textHead := ["a"], undoStack := [],
            redoStack := [{ type := INSERT, word := "b", position := 2 }],
            undoCount := 0 } = some s2 ∧
        s2.redoStack = [] ∧ redo s2 = some (false, s2)) :=
  redo_invalidation
    { textHead := ["a", "b"],
      undoStack := [{ type := INSERT, word := "b", position := 2 }],
      redoStack := [], undoCount := 1 }
    { textHead := ["a"], undoStack := [],
      redoStack := [{ type := INSERT, word := "b", position := 2 }],
      undoCount := 0 }
    (Edit.ins "z" 1) (by decide) (by decide)

/-! ## Load, scenario, and the stacks in reachable states -/

/-- C11 (amended). Load contract: from every prior session state and for every word
sequence `ws` read from the file whose words each fit the word buffer (at most 49
bytes), `loadFromFile` returns, leaving the document equal to `ws` in order, both stacks
empty and `undoCount` 0; `undo()` and `redo()` right after it both take their early return
and change nothing. -/
theorem load_contract (s : State) (ws : List Word) (hfit : ws.all fits = true) :
    ∃ s1, loadFromFile (some ws) s = some s1 ∧
      s1 = { textHead := ws, undoStack := [], redoStack := [], undoCount := 0 } ∧
      undo s1 = some (false, s1) ∧ redo s1 = some (false, s1) :=
  ⟨_, loadFromFile_some ws s hfit, rfl, rfl, rfl⟩

theorem load_contract_witness :
    ∃ s1, loadFromFile (some ["x", "y"])
        (⟨["a"], [⟨INSERT, "a", 1⟩], [⟨INSERT, "b", 2⟩], 1⟩ : State) = some s1 ∧
      s1 = { textHead := ["x", "y"], undoStack := [], redoStack := [], undoCount := 0 } ∧
      undo s1 = some (false, s1) ∧ redo s1 = some (false, s1) :=
  load_contract (⟨["a"], [⟨INSERT, "a", 1⟩], [⟨INSERT, "b", 2⟩], 1⟩ : State) ["x", "y"]
    (by decide)

/-- C11 (counterexample to the claim as stated). A file whose only word has 50 bytes:
the word does not fit `w[WORD_LEN]`, the read of `loadFromFile` overruns the buffer and
no document equal to the file's words results. -/
theorem load_overruns_on_long_word :
    fits "aaaaaaaaaaaaaaaaaaaaaaaaaaaaaaaaaaaaaaaaaaaaaaaaaa" = false ∧
      loadFromFile (some ["aaaaaaaaaaaaaaaaaaaaaaaaaaaaaaaaaaaaaaaaaaaaaaaaaa"]) initState
        = none := by
  decide

/-- C12. Scenario of the spec: from the empty session, recorded inserts of `a`, `b`, `c`
at positions 1, 2, 3 give `[a, b, c]`; `undo()` gives `[a, b]` with one redo entry; a
second `undo()` gives `[a]`; `redo()` gives `[a, b]`; the recorded insert of `x` at
position 1 gives `[x, a, b]`; the following `redo()` takes its early return. -/
theorem spec_scenario :
    runEdits [Edit.ins "a" 1, Edit.ins "b" 2, Edit.ins "c" 3] initState =
        some { textHead := ["a", "b", "c"],
               undoStack := [{ type := INSERT, word := "c", position := 3 },
                             { type := INSERT, word := "b", position := 2 },
                             { type := INSERT, word := "a", position := 1 }],
               redoStack := [], undoCount := 3 } ∧
      undo { textHead := ["a", "b", "c"],
             undoStack := [{ type := INSERT, word := "c", position := 3 },
                           { type := INSERT, word := "b", position := 2 },
                           { type := INSERT, word := "a", position := 1 }],
             redoStack := [], undoCount := 3 } =
        some (true,
          { textHead := ["a", "b"],
            undoStack := [{ type := INSERT, word := "b", position := 2 },
                          { type := INSERT, word := "a", position := 1 }],
            redoStack := [{ type := INSERT, word := "c", position := 3 }],
            undoCount := 2 }) ∧
      undo { textHead := ["a", "b"],
             undoStack := [{ type := INSERT, word := "b", position := 2 },
                           { type := INSERT, word := "a", position := 1 }],
             redoStack := [{ type := INSERT, word := "c", position := 3 }],
             undoCount := 2 } =
        some (true,
          { textHead := ["a"],
            undoStack := [{ type := INSERT, word := "a", position := 1 }],
            redoStack := [{ type := INSERT, word := "b", position := 2 },
                          { type := INSERT, word := "c", position := 3 }],
            undoCount := 1 }) ∧
      redo { textHead := ["a"],
             undoStack := [{ type := INSERT, word := "a", position := 1 }],
             redoStack := [{ type := INSERT, word := "b", position := 2 },
                           { type := INSERT, word := "c", position := 3 }],
             undoCount := 1 } =
        some (true,
          { textHead := ["a", "b"],
            undoStack := [{ type := INSERT, word := "b", position := 2 },
                          { type := INSERT, word := "a", position := 1 }],
            redoStack := [{ type := INSERT, word := "c", position := 3 }],
            undoCount := 2 }) ∧
      editInsert "x" 1
          { textHead := ["a", "b"],
            undoStack := [{ type := INSERT, word := "b", position := 2 },
                          { type := INSERT, word := "a", position := 1 }],
            redoStack := [{ type := INSERT, word := "c", position := 3 }],
            undoCount := 2 } =
        some { textHead := ["x", "a", "b"],
               undoStack := [{ type := INSERT, word := "x", position := 1 },
                             { type := INSERT, word := "b", position := 2 },
                             { type := INSERT, word := "a", position := 1 }],
               redoStack := [], undoCount := 3 } ∧
      redo { textHead := ["x", "a", "b"],
             undoStack := [{ type := INSERT, word := "x", position := 1 },
                           { type := INSERT, word := "b", position := 2 },
                           { type := INSERT, word := "a", position := 1 }],
             redoStack := [], undoCount := 3 } =
        some (false,
          { textHead := ["x", "a", "b"],
            undoStack := [{ type := INSERT, word := "x", position := 1 },
                          { type := INSERT, word := "b", position := 2 },
                          { type := INSERT, word := "a", position := 1 }],
            redoStack := [], undoCount := 3 }) := by
  decide

/-- C13. Bounded push: on an undo stack `st` whose tracked count is its length, `push(a)`
gives `a :: st` (count + 1) when `|st| < MAX_UNDO`, and `a` followed by `st` without its
last, oldest element (count unchanged) when `|st| = MAX_UNDO`; for `|st| ≤ MAX_UNDO` the
result has `a` on top, below it a prefix of `st` in the same order, its count is its
length, and its size is at most `MAX_UNDO`. -/
theorem bounded_push_evicts_oldest (st : List Action) (a : Action) (c : Int)
    (hc : c = st.length) :
    ((st.length : Int) < MAX_UNDO → push st a c = some (a :: st, c + 1)) ∧
      ((st.length : Int) = MAX_UNDO → push st a c = some (a :: st.dropLast, c)) ∧
      ((st.length : Int) ≤ MAX_UNDO → ∃ st1 c1, push st a c = some (st1, c1) ∧
        c1 = st1.length ∧ (st1.length : Int) ≤ MAX_UNDO ∧ st1.head? = some a ∧
        st1.tail <+: st) := by
  subst hc
  refine ⟨?_, ?_, ?_⟩
  · intro h
    have hne : ¬ ((st.length : Int) = MAX_UNDO) := by omega
    simp only [push, if_neg hne]
  · intro h
    have h5 : st.length = 5 := by simp only [MAX_UNDO] at h; omega
    match st, h5 with
    | [x1, x2, x3, x4, x5], _ => simp [push, MAX_UNDO, evictWalk]
  · intro h
    have hu : st.length ≤ 5 := by simp only [MAX_UNDO] at h; omega
    refine ⟨_, _, push_consistent st a st.length rfl hu, rfl, ?_, ?_, ?_⟩
    · simp only [MAX_UNDO, List.length_take]; omega
    · simp
    · simp only [List.take_succ_cons, List.tail_cons]
      exact List.take_prefix 4 st

theorem bounded_push_evicts_oldest_witness :
    push [⟨INSERT, "e", 5⟩, ⟨INSERT, "d", 4⟩, ⟨INSERT, "c", 3⟩, ⟨INSERT, "b", 2⟩,
          ⟨INSERT, "a", 1⟩] ⟨INSERT, "f", 6⟩ 5 =
        some ([⟨INSERT, "f", 6⟩, ⟨INSERT, "e", 5⟩, ⟨INSERT, "d", 4⟩, ⟨INSERT, "c", 3⟩,
          ⟨INSERT, "b", 2⟩], 5) ∧
      ∃ st1 c1,
        push [⟨INSERT, "e", 5⟩, ⟨INSERT, "d", 4⟩, ⟨INSERT, "c", 3⟩, ⟨INSERT, "b", 2⟩,
            ⟨INSERT, "a", 1⟩] ⟨INSERT, "f", 6⟩ 5 = some (st1, c1) ∧
          c1 = st1.length ∧ (st1.length : Int) ≤ MAX_UNDO ∧
          st1.head? = some ⟨INSERT, "f", 6⟩ ∧
          st1.tail <+: [⟨INSERT, "e", 5⟩, ⟨INSERT, "d", 4⟩, ⟨INSERT, "c", 3⟩,
            ⟨INSERT, "b", 2⟩, ⟨INSERT, "a", 1⟩] :=
  ⟨(bounded_push_evicts_oldest
      [⟨INSERT, "e", 5⟩, ⟨INSERT, "d", 4⟩, ⟨INSERT, "c", 3⟩, ⟨INSERT, "b", 2⟩,
        ⟨INSERT, "a", 1⟩] ⟨INSERT, "f", 6⟩ 5 (by decide)).2.1 (by decide),
   (bounded_push_evicts_oldest
      [⟨INSERT, "e", 5⟩, ⟨INSERT, "d", 4⟩, ⟨INSERT, "c", 3⟩, ⟨INSERT, "b", 2⟩,
        ⟨INSERT, "a", 1⟩] ⟨INSERT, "f", 6⟩ 5 (by decide)).2.2 (by decide)⟩

/-- C14 (counterexample to the claim as stated: its negation). There is no reachable
session state and no finite sequence of `undo()`/`redo()` calls after which a `redo()`
call takes the eviction branch of `push`. -/
theorem no_redo_eviction_in_oscillation :
    ¬ ∃ (s : State) (cmds : List Cmd) (s1 : State),
      Reachable s ∧ runCmds cmds s = some s1 ∧ redoEvicts s1 = true := by
  rintro ⟨s, cmds, s1, hs, hrun, hev⟩
  obtain ⟨s2, h2, hr2⟩ := reachable_runCmds cmds s hs
  rw [hrun, Option.some.injEq] at h2
  subst h2
  rw [redoEvicts_false s1 (reachable_historyInv s1 hr2)] at hev
  exact Bool.false_ne_true hev

/-- C14 (amended). Redo never evicts in an undo/redo oscillation: from every reachable
session state every finite sequence of `undo()`/`redo()` calls runs, and in the state it
ends in a `redo()` does not take the eviction branch: when an action `a` waits on the redo
stack, `redo()` puts `a` on top of the undo stack and keeps every undo entry below it. -/
theorem redo_keeps_undo_entries (s : State) (cmds : List Cmd) (hs : Reachable s) :
    ∃ s1, runCmds cmds s = some s1 ∧ redoEvicts s1 = false ∧
      ∀ a r, s1.redoStack = a :: r →
        redo s1 = some (true,
          { textHead := redoApply a s1.textHead, undoStack := a :: s1.undoStack,
            redoStack := r, undoCount := s1.undoCount + 1 }) := by
  obtain ⟨s1, h1, hr1⟩ := reachable_runCmds cmds s hs
  have hinv := reachable_historyInv s1 hr1
  exact ⟨s1, h1, redoEvicts_false s1 hinv, fun a r hr => redo_no_eviction s1 hinv a r hr⟩

/-- C15. Undo transfers the action without eviction: in every state with undo stack
`a :: u` and redo stack `r` of any length, `undo()` leaves the undo stack `u`, the undo
count one less, and the redo stack `a :: r`, the action unchanged and all of `r` kept. -/
theorem undo_transfers_action (text : List Word) (a : Action) (u r : List Action)
    (c : Int) :
    ∃ s1, undo { textHead := text, undoStack := a :: u, redoStack := r, undoCount := c }
        = some (true, s1) ∧
      s1.undoStack = u ∧ s1.undoCount = c - 1 ∧ s1.redoStack = a :: r ∧
      s1.redoStack.length = r.length + 1 :=
  ⟨_, undo_cons text a u r c, rfl, rfl, rfl, rfl⟩

/-- C16. Undo-count invariant: in every reachable session state the counter `undoCount`
that `displayText` prints is the number of entries on the undo stack, and
`0 ≤ undoCount ≤ MAX_UNDO`. -/
theorem undo_count_invariant (s : State) (hs : Reachable s) :
    s.undoCount = s.undoStack.length ∧ 0 ≤ s.undoCount ∧ s.undoCount ≤ MAX_UNDO := by
  obtain ⟨hc, hle⟩ := reachable_historyInv s hs
  refine ⟨hc, ?_, ?_⟩
  · rw [hc]; exact Int.natCast_nonneg _
  · rw [hc]; simp only [MAX_UNDO]; omega

/-- C17. Combined history bound: in every reachable session state the undo entries and
the redo entries together are at most `MAX_UNDO`; so whenever an action waits on the redo
stack, `undoCount < MAX_UNDO` and the `push` that `redo()` performs takes the plain
branch: it returns the action on top of the unchanged undo stack. -/
theorem combined_history_bound (s : State) (hs : Reachable s) :
    (s.undoStack.length : Int) + s.redoStack.length ≤ MAX_UNDO ∧
      (s.redoStack ≠ [] → s.undoCount < MAX_UNDO) ∧
      ∀ a r, s.redoStack = a :: r →
        push s.undoStack a s.undoCount = some (a :: s.undoStack, s.undoCount + 1) := by
  obtain ⟨hc, hle⟩ := reachable_historyInv s hs
  have hlt : s.redoStack ≠ [] → s.undoCount < MAX_UNDO := by
    intro hne
    have : 0 < s.redoStack.length := List.length_pos.mpr hne
    rw [hc]; simp only [MAX_UNDO]; omega
  refine ⟨by simp only [MAX_UNDO]; omega, hlt, ?_⟩
  intro a r hr
  have hne : ¬ (s.undoCount = MAX_UNDO) := by
    have := hlt (by rw [hr]; simp)
    omega
  simp only [push, if_neg hne]

theorem redo_keeps_undo_entries_witness :
    ∃ s1, runCmds [Cmd.undo, Cmd.redo, Cmd.undo]
        (⟨["a"], [⟨INSERT, "a", 1⟩], [⟨INSERT, "b", 2⟩], 1⟩ : State) = some s1 ∧
      redoEvicts s1 = false ∧
      ∀ a r, s1.redoStack = a :: r →
        redo s1 = some (true,
          { textHead := redoApply a s1.textHead, undoStack := a :: s1.undoStack,
            redoStack := r, undoCount := s1.undoCount + 1 }) :=
  redo_keeps_undo_entries
    (⟨["a"], [⟨INSERT, "a", 1⟩], [⟨INSERT, "b", 2⟩], 1⟩ : State)
    [Cmd.undo, Cmd.redo, Cmd.undo]
    (Reachable.undo
      (⟨["a", "b"], [⟨INSERT, "b", 2⟩, ⟨INSERT, "a", 1⟩], [], 2⟩ : State)
      (⟨["a"], [⟨INSERT, "a", 1⟩], [⟨INSERT, "b", 2⟩], 1⟩ : State) true
      (reachable_seedLoop ["a", "b"] initState
        (⟨["a", "b"], [⟨INSERT, "b", 2⟩, ⟨INSERT, "a", 1⟩], [], 2⟩ : State)
        Reachable.start (by decide))
      (by decide))

theorem undo_count_invariant_witness :
    (⟨["a"], [⟨INSERT, "a", 1⟩], [⟨INSERT, "b", 2⟩], 1⟩ : State).undoCount =
        ((⟨["a"], [⟨INSERT, "a", 1⟩], [⟨INSERT, "b", 2⟩], 1⟩ : State).undoStack.length
          : Int) ∧
      0 ≤ (⟨["a"], [⟨INSERT, "a", 1⟩], [⟨INSERT, "b", 2⟩], 1⟩ : State).undoCount ∧
      (⟨["a"], [⟨INSERT, "a", 1⟩], [⟨INSERT, "b", 2⟩], 1⟩ : State).undoCount ≤ MAX_UNDO :=
  undo_count_invariant
    (⟨["a"], [⟨INSERT, "a", 1⟩], [⟨INSERT, "b", 2⟩], 1⟩ : State)
    (Reachable.undo
      (⟨["a", "b"], [⟨INSERT, "b", 2⟩, ⟨INSERT, "a", 1⟩], [], 2⟩ : State)
      (⟨["a"], [⟨INSERT, "a", 1⟩], [⟨INSERT, "b", 2⟩], 1⟩ : State) true
      (reachable_seedLoop ["a", "b"] initState
        (⟨["a", "b"], [⟨INSERT, "b", 2⟩, ⟨INSERT, "a", 1⟩], [], 2⟩ : State)
        Reachable.start (by decide))
      (by decide))

theorem combined_history_bound_witness :
    ((⟨["a"], [⟨INSERT, "a", 1⟩], [⟨INSERT, "b", 2⟩], 1⟩ : State).undoStack.length
          : Int) +
        ((⟨["a"], [⟨INSERT, "a", 1⟩], [⟨INSERT, "b", 2⟩], 1⟩ : State).redoStack.length
          : Int) ≤ MAX_UNDO ∧
      ((⟨["a"], [⟨INSERT, "a", 1⟩], [⟨INSERT, "b", 2⟩], 1⟩ : State).redoStack ≠ [] →
        (⟨["a"], [⟨INSERT, "a", 1⟩], [⟨INSERT, "b", 2⟩], 1⟩ : State).undoCount
          < MAX_UNDO) ∧
      ∀ a r,
        (⟨["a"], [⟨INSERT, "a", 1⟩], [⟨INSERT, "b", 2⟩], 1⟩ : State).redoStack = a :: r →
        push (⟨["a"], [⟨INSERT, "a", 1⟩], [⟨INSERT, "b", 2⟩], 1⟩ : State).undoStack a
            (⟨["a"], [⟨INSERT, "a", 1⟩], [⟨INSERT, "b", 2⟩], 1⟩ : State).undoCount =
          some
            (a :: (⟨["a"], [⟨INSERT, "a", 1⟩], [⟨INSERT, "b", 2⟩], 1⟩ : State).undoStack,
              (⟨["a"], [⟨INSERT, "a", 1⟩], [⟨INSERT, "b", 2⟩], 1⟩ : State).undoCount + 1) :=
  combined_history_bound
    (⟨["a"], [⟨INSERT, "a", 1⟩], [⟨INSERT, "b", 2⟩], 1⟩ : State)
    (Reachable.undo
      (⟨["a", "b"], [⟨INSERT, "b", 2⟩, ⟨INSERT, "a", 1⟩], [], 2⟩ : State)
      (⟨["a"], [⟨INSERT, "a", 1⟩], [⟨INSERT, "b", 2⟩], 1⟩ : State) true
      (reachable_seedLoop ["a", "b"] initState
        (⟨["a", "b"], [⟨INSERT, "b", 2⟩, ⟨INSERT, "a", 1⟩], [], 2⟩ : State)
        Reachable.start (by decide))
      (by decide))

/-- C18 (amended). Startup seeding then undo: for every list `ws` of `n` tokens that each
fit the word buffer (at most 49 bytes) the seeding loop of `main`, run from the start
state, ends with the document equal to `ws`; and for every `k ≤ min n MAX_UNDO` the first
`k` calls of `undo()` all take the non-empty branch and leave exactly the first `n - k`
words, the `deleteWordAt` call of each of them (the call number `j + 1`, for `j < k`)
having returned 1 with the word `ws[n - 1 - j]`. -/
theorem seeding_then_undo (ws : List Word) (hfit : ws.all fits = true) :
    ∃ s1, seedLoop ws initState = some s1 ∧ s1.textHead = ws ∧
      ∀ k : Nat, k ≤ ws.length → (k : Int) ≤ MAX_UNDO →
        ∃ sk, undoTimes k s1 = some (List.replicate k true, sk) ∧
          sk.textHead = ws.take (ws.length - k) ∧
          ∀ j : Nat, j < k → ∃ sj w,
            undoTimes j s1 = some (List.replicate j true, sj) ∧
            undoDeleteResult sj = some (some w) ∧
            ws[ws.length - 1 - j]? = some w := by
  obtain ⟨s1, _, _, _, h1, ht, _, _⟩ :=
    seedLoop_undoTimes ws 0 hfit (Nat.zero_le _) (by omega)
  refine ⟨s1, h1, ht, ?_⟩
  intro k hk hkM
  have hk5 : k ≤ 5 := by simp only [MAX_UNDO] at hkM; omega
  obtain ⟨s1k, Uk, Rk, ck, h1k, _, hunk, _⟩ := seedLoop_undoTimes ws k hfit hk hk5
  rw [h1, Option.some.injEq] at h1k
  subst h1k
  refine ⟨_, hunk, rfl, ?_⟩
  intro j hj
  obtain ⟨s1j, Uj, Rj, cj, h1j, _, hunj, hhead⟩ :=
    seedLoop_undoTimes ws j hfit (by omega) (by omega)
  rw [h1, Option.some.injEq] at h1j
  subst h1j
  obtain ⟨w, rest, hw, hUj⟩ := hhead (by omega) (by omega)
  subst hUj
  refine ⟨_, w, hunj, ?_, hw⟩
  have hlen : (ws.take (ws.length - j)).length = ws.length - j := by
    rw [List.length_take]; omega
  obtain ⟨d, hd, hdel⟩ := deleteWordAt_valid ((ws.length - j : Nat) : Int)
    (ws.take (ws.length - j)) (by omega) (by rw [hlen])
  have hidx : (((ws.length - j : Nat) : Int) - 1).toNat = ws.length - 1 - j := by omega
  rw [hidx, List.getElem?_take] at hd
  have hdw : d = w := by
    split at hd
    · rw [hw, Option.some.injEq] at hd
      exact hd.symm
    · simp at hd
  subst hdw
  simp [undoDeleteResult, pop, hdel]

theorem seeding_then_undo_witness :
    ∃ s1, seedLoop ["a", "b", "c"] initState = some s1 ∧ s1.textHead = ["a", "b", "c"] ∧
      ∀ k : Nat, k ≤ (["a", "b", "c"] : List Word).length → (k : Int) ≤ MAX_UNDO →
        ∃ sk, undoTimes k s1 = some (List.replicate k true, sk) ∧
          sk.textHead = (["a", "b", "c"] : List Word).take
            ((["a", "b", "c"] : List Word).length - k) ∧
          ∀ j : Nat, j < k → ∃ sj w,
            undoTimes j s1 = some (List.replicate j true, sj) ∧
            undoDeleteResult sj = some (some w) ∧
            (["a", "b", "c"] : List Word)[(["a", "b", "c"] : List Word).length - 1 - j]?
              = some w :=
  seeding_then_undo ["a", "b", "c"] (by decide)

/-- C18 (counterexample to the claim as stated). An input line whose second token has
50 bytes: the token does not fit the 50-byte word buffers, the `strcpy` of the seeding
loop overruns them and no document equal to the tokens results. -/
theorem seeding_overruns_on_long_token :
    fits "bbbbbbbbbbbbbbbbbbbbbbbbbbbbbbbbbbbbbbbbbbbbbbbbbb" = false ∧
      seedLoop ["a", "bbbbbbbbbbbbbbbbbbbbbbbbbbbbbbbbbbbbbbbbbbbbbbbbbb"] initState = none := by
  decide

/-- C19. Undo ignores a failed inverse: in every state whose undo-stack top `a` is an
Insert action with a position beyond the document length, the `deleteWordAt` of `undo()`
returns 0 and the document is unchanged, yet `a` leaves the undo stack, `undoCount` drops
by one and `a` is pushed on the redo stack; the following `redo()` appends `a.word`, so
the document is one word longer than before the undo (for whatever `push` returns, and in
particular when `undoCount` was the size of the undo stack, at most `MAX_UNDO`). -/
theorem undo_ignores_failed_inverse (text : List Word) (a : Action) (u r : List Action)
    (c : Int) (ht : a.type = INSERT) (hp : wordCount text < a.position) :
    (deleteWordAt a.position text).1 = none ∧
      undo { textHead := text, undoStack := a :: u, redoStack := r, undoCount := c } =
        some (true,
          { textHead := text, undoStack := u, redoStack := a :: r, undoCount := c - 1 }) ∧
      (∀ u1 c1, push u a (c - 1) = some (u1, c1) →
        redo { textHead := text, undoStack := u, redoStack := a :: r, undoCount := c - 1 } =
          some (true,
            { textHead := text ++ [a.word], undoStack := u1, redoStack := r,
              undoCount := c1 })) ∧
      (c = ((a :: u).length : Nat) → (((a :: u).length : Nat) : Int) ≤ MAX_UNDO →
        redo { textHead := text, undoStack := u, redoStack := a :: r, undoCount := c - 1 } =
          some (true,
            { textHead := text ++ [a.word], undoStack := a :: u, redoStack := r,
              undoCount := c })) ∧
      wordCount (text ++ [a.word]) = wordCount text + 1 := by
  have hp2 : (text.length : Int) < a.position := by rw [← wordCount_eq]; exact hp
  have hdel := deleteWordAt_beyond a.position text hp2
  have hins : insertWordAt a.word a.position text = text ++ [a.word] := by
    have hge : text.length ≤ (a.position - 1).toNat := by omega
    rw [insertWordAt_eq, List.take_of_length_le hge, List.drop_of_length_le hge]
  have hredo : ∀ u1 c1, push u a (c - 1) = some (u1, c1) →
      redo { textHead := text, undoStack := u, redoStack := a :: r, undoCount := c - 1 } =
        some (true,
          { textHead := text ++ [a.word], undoStack := u1, redoStack := r,
            undoCount := c1 }) := by
    intro u1 c1 hpush
    simp only [redo, pop, hpush, redoApply, if_pos ht, hins]
  refine ⟨by rw [hdel], ?_, hredo, ?_, ?_⟩
  · rw [undo_cons]
    simp only [undoApply, if_pos ht, hdel]
  · intro hc hle
    apply hredo
    simp only [List.length_cons, MAX_UNDO] at hc hle
    push_cast at hc hle
    have hne : ¬ (c - 1 = MAX_UNDO) := by simp only [MAX_UNDO]; omega
    simp only [push, if_neg hne, sub_add_cancel]
  · rw [wordCount_eq, wordCount_eq]
    simp

theorem undo_ignores_failed_inverse_witness :
    (deleteWordAt ({ type := INSERT, word := "x", position := 9 } : Action).position
        ["a"]).1 = none ∧
      undo { textHead := ["a"],
             undoStack := { type := INSERT, word := "x", position := 9 } :: [],
             redoStack := [], undoCount := 1 } =
        some (true,
          { textHead := ["a"], undoStack := [],
            redoStack := { type := INSERT, word := "x", position := 9 } :: [],
            undoCount := 1 - 1 }) ∧
      (∀ u1 c1, push [] { type := INSERT, word := "x", position := 9 } (1 - 1)
            = some (u1, c1) →
        redo { textHead := ["a"], undoStack := [],
               redoStack := { type := INSERT, word := "x", position := 9 } :: [],
               undoCount := 1 - 1 } =
          some (true,
            { textHead := ["a"] ++
                [({ type := INSERT, word := "x", position := 9 } : Action).word],
              undoStack := u1, redoStack := [], undoCount := c1 })) ∧
      ((1 : Int) = ((({ type := INSERT, word := "x", position := 9 } : Action) :: []).length
            : Nat) →
        ((((({ type := INSERT, word := "x", position := 9 } : Action) :: []).length : Nat)
            : Int) ≤ MAX_UNDO) →
        redo { textHead := ["a"], undoStack := [],
               redoStack := { type := INSERT, word := "x", position := 9 } :: [],
               undoCount := 1 - 1 } =
          some (true,
            { textHead := ["a"] ++
                [({ type := INSERT, word := "x", position := 9 } : Action).word],
              undoStack := { type := INSERT, word := "x", position := 9 } :: [],
              redoStack := [], undoCount := 1 })) ∧
      wordCount (["a"] ++ [({ type := INSERT, word := "x", position := 9 } : Action).word])
        = wordCount ["a"] + 1 :=
  undo_ignores_failed_inverse ["a"] { type := INSERT, word := "x", position := 9 } [] [] 1
    (by decide) (by decide)

/-- C20. Eviction traversal is safe: in every reachable session state, for every action
`a`, when `undoCount == MAX_UNDO` the undo stack has a top node, an oldest node and at
least two nodes in all, and `push` returns `a` on top of the stack without its oldest
node, the former top node kept; `push` on the undo stack always returns a stack (it never
reaches the cases where the walk reads through NULL or frees the top node); and `push`
on the redo stack, whose count is the fresh 0, takes the plain branch. -/
theorem eviction_traversal_safe (s : State) (a : Action) (hs : Reachable s) :
    (s.undoCount = MAX_UNDO →
        2 ≤ s.undoStack.length ∧
        ∃ top mid oldest, s.undoStack = top :: (mid ++ [oldest]) ∧
          push s.undoStack a s.undoCount = some (a :: top :: mid, MAX_UNDO)) ∧
      (∃ res, push s.undoStack a s.undoCount = some res) ∧
      push s.redoStack a 0 = some (a :: s.redoStack, 1) := by
  obtain ⟨hc, hle⟩ := reachable_historyInv s hs
  have hu : s.undoStack.length ≤ 5 := by omega
  refine ⟨?_, ⟨_, push_consistent s.undoStack a s.undoCount hc hu⟩, ?_⟩
  · intro h5
    have hl : s.undoStack.length = 5 := by
      rw [hc] at h5; simp only [MAX_UNDO] at h5; omega
    refine ⟨by omega, ?_⟩
    rw [h5]
    match hst : s.undoStack, hl with
    | [x1, x2, x3, x4, x5], _ =>
      exact ⟨x1, [x2, x3, x4], x5, rfl, by simp [push, MAX_UNDO, evictWalk]⟩
  · simp [push, MAX_UNDO]

theorem eviction_traversal_safe_witness :
    ((⟨["a", "b", "c", "d", "e"],
      [⟨INSERT, "e", 5⟩, ⟨INSERT, "d", 4⟩, ⟨INSERT, "c", 3⟩,
        ⟨INSERT, "b", 2⟩, ⟨INSERT, "a", 1⟩], [], 5⟩ : State).undoCount = MAX_UNDO →
        2 ≤ (⟨["a", "b", "c", "d", "e"],
          [⟨INSERT, "e", 5⟩, ⟨INSERT, "d", 4⟩, ⟨INSERT, "c", 3⟩,
            ⟨INSERT, "b", 2⟩, ⟨INSERT, "a", 1⟩], [], 5⟩ : State).undoStack.length ∧
        ∃ top mid oldest,
          (⟨["a", "b", "c", "d", "e"],
            [⟨INSERT, "e", 5⟩, ⟨INSERT, "d", 4⟩, ⟨INSERT, "c", 3⟩,
              ⟨INSERT, "b", 2⟩, ⟨INSERT, "a", 1⟩], [], 5⟩ : State).undoStack =
            top :: (mid ++ [oldest]) ∧
          push (⟨["a", "b", "c", "d", "e"],
            [⟨INSERT, "e", 5⟩, ⟨INSERT, "d", 4⟩, ⟨INSERT, "c", 3⟩,
              ⟨INSERT, "b", 2⟩, ⟨INSERT, "a", 1⟩], [], 5⟩ : State).undoStack
              (⟨INSERT, "f", 6⟩ : Action)
              (⟨["a", "b", "c", "d", "e"],
                [⟨INSERT, "e", 5⟩, ⟨INSERT, "d", 4⟩, ⟨INSERT, "c", 3⟩,
                  ⟨INSERT, "b", 2⟩, ⟨INSERT, "a", 1⟩], [], 5⟩ : State).undoCount =
            some ((⟨INSERT, "f", 6⟩ : Action) :: top :: mid, MAX_UNDO)) ∧
      (∃ res,
        push (⟨["a", "b", "c", "d", "e"],
          [⟨INSERT, "e", 5⟩, ⟨INSERT, "d", 4⟩, ⟨INSERT, "c", 3⟩,
            ⟨INSERT, "b", 2⟩, ⟨INSERT, "a", 1⟩], [], 5⟩ : State).undoStack
            (⟨INSERT, "f", 6⟩ : Action)
            (⟨["a", "b", "c", "d", "e"],
              [⟨INSERT, "e", 5⟩, ⟨INSERT, "d", 4⟩, ⟨INSERT, "c", 3⟩,
                ⟨INSERT, "b", 2⟩, ⟨INSERT, "a", 1⟩], [], 5⟩ : State).undoCount = some res) ∧
      push (⟨["a", "b", "c", "d", "e"],
        [⟨INSERT, "e", 5⟩, ⟨INSERT, "d", 4⟩, ⟨INSERT, "c", 3⟩,
          ⟨INSERT, "b", 2⟩, ⟨INSERT, "a", 1⟩], [], 5⟩ : State).redoStack
          (⟨INSERT, "f", 6⟩ : Action) 0 =
        some ((⟨INSERT, "f", 6⟩ : Action) ::
          (⟨["a", "b", "c", "d", "e"],
            [⟨INSERT, "e", 5⟩, ⟨INSERT, "d", 4⟩, ⟨INSERT, "c", 3⟩,
              ⟨INSERT, "b", 2⟩, ⟨INSERT, "a", 1⟩], [], 5⟩ : State).redoStack, 1) :=
  eviction_traversal_safe
    (⟨["a", "b", "c", "d", "e"],
      [⟨INSERT, "e", 5⟩, ⟨INSERT, "d", 4⟩, ⟨INSERT, "c", 3⟩,
        ⟨INSERT, "b", 2⟩, ⟨INSERT, "a", 1⟩], [], 5⟩ : State)
    (⟨INSERT, "f", 6⟩ : Action)
    (reachable_seedLoop ["a", "b", "c", "d", "e"] initState
      (⟨["a", "b", "c", "d", "e"],
        [⟨INSERT, "e", 5⟩, ⟨INSERT, "d", 4⟩, ⟨INSERT, "c", 3⟩,
          ⟨INSERT, "b", 2⟩, ⟨INSERT, "a", 1⟩], [], 5⟩ : State)
      Reachable.start (by decide))

end MiniProject
